import Mathlib

/-!
# Verification of the document-recovery engine and schema normalizer

Shallow embedding of the two core algorithms of `backend/server.py`:

* the **Recovery Engine** inside `generate_api_with_openai` (markdown-fence
  stripping, outer-brace isolation, trailing-comma removal, control-character
  re-escaping, strict JSON parse, defect repair, balanced-brace extraction,
  smart truncation, regex extraction, content-shape coercion), and
* the **Schema Normalizer** `normalize_schema` (with its helpers
  `extract_fields` and `process_model`).

Python values produced by `json.loads` and consumed by `normalize_schema` are
modelled by `PVal`; text is modelled as `List Char`.  JSON number literals are
modelled as integers (fractional and exponent literals are outside the model;
no claim exercises them).  Strings are sequences of unicode scalar values, so
lone surrogates (unrepresentable in Lean's `Char`) are outside the model.
-/

set_option maxRecDepth 4000

namespace RecoveryEngine

/-- Python values of JSON shape: the result type of `json.loads` and the
input/output type of `normalize_schema`. -/
inductive PVal : Type where
  | str : List Char → PVal
  | int : Int → PVal
  | bool : Bool → PVal
  | null : PVal
  | list : List PVal → PVal
  | dict : List (PVal × PVal) → PVal
deriving Repr

mutual

/-- Decidable equality on `PVal` (hand-rolled: `PVal` is a nested inductive). -/
def pvalDecEq : (a b : PVal) → Decidable (a = b)
  | .str a, .str b =>
    match decEq a b with
    | isTrue h => isTrue (by rw [h])
    | isFalse h => isFalse (fun hh => h (PVal.str.inj hh))
  | .int a, .int b =>
    match decEq a b with
    | isTrue h => isTrue (by rw [h])
    | isFalse h => isFalse (fun hh => h (PVal.int.inj hh))
  | .bool a, .bool b =>
    match decEq a b with
    | isTrue h => isTrue (by rw [h])
    | isFalse h => isFalse (fun hh => h (PVal.bool.inj hh))
  | .null, .null => isTrue rfl
  | .list a, .list b =>
    match pvalListDecEq a b with
    | isTrue h => isTrue (by rw [h])
    | isFalse h => isFalse (fun hh => h (PVal.list.inj hh))
  | .dict a, .dict b =>
    match pvalDictDecEq a b with
    | isTrue h => isTrue (by rw [h])
    | isFalse h => isFalse (fun hh => h (PVal.dict.inj hh))
  | .str _, .int _ => isFalse (fun h => nomatch h)
  | .str _, .bool _ => isFalse (fun h => nomatch h)
  | .str _, .null => isFalse (fun h => nomatch h)
  | .str _, .list _ => isFalse (fun h => nomatch h)
  | .str _, .dict _ => isFalse (fun h => nomatch h)
  | .int _, .str _ => isFalse (fun h => nomatch h)
  | .int _, .bool _ => isFalse (fun h => nomatch h)
  | .int _, .null => isFalse (fun h => nomatch h)
  | .int _, .list _ => isFalse (fun h => nomatch h)
  | .int _, .dict _ => isFalse (fun h => nomatch h)
  | .bool _, .str _ => isFalse (fun h => nomatch h)
  | .bool _, .int _ => isFalse (fun h => nomatch h)
  | .bool _, .null => isFalse (fun h => nomatch h)
  | .bool _, .list _ => isFalse (fun h => nomatch h)
  | .bool _, .dict _ => isFalse (fun h => nomatch h)
  | .null, .str _ => isFalse (fun h => nomatch h)
  | .null, .int _ => isFalse (fun h => nomatch h)
  | .null, .bool _ => isFalse (fun h => nomatch h)
  | .null, .list _ => isFalse (fun h => nomatch h)
  | .null, .dict _ => isFalse (fun h => nomatch h)
  | .list _, .str _ => isFalse (fun h => nomatch h)
  | .list _, .int _ => isFalse (fun h => nomatch h)
  | .list _, .bool _ => isFalse (fun h => nomatch h)
  | .list _, .null => isFalse (fun h => nomatch h)
  | .list _, .dict _ => isFalse (fun h => nomatch h)
  | .dict _, .str _ => isFalse (fun h => nomatch h)
  | .dict _, .int _ => isFalse (fun h => nomatch h)
  | .dict _, .bool _ => isFalse (fun h => nomatch h)
  | .dict _, .null => isFalse (fun h => nomatch h)
  | .dict _, .list _ => isFalse (fun h => nomatch h)

/-- Decidable equality on lists of `PVal`. -/
def pvalListDecEq : (a b : List PVal) → Decidable (a = b)
  | [], [] => isTrue rfl
  | [], _ :: _ => isFalse (fun h => nomatch h)
  | _ :: _, [] => isFalse (fun h => nomatch h)
  | x :: xs, y :: ys =>
    match pvalDecEq x y with
    | isFalse h => isFalse (fun hh => h (List.cons.inj hh).1)
    | isTrue h1 =>
      match pvalListDecEq xs ys with
      | isTrue h2 => isTrue (by rw [h1, h2])
      | isFalse h => isFalse (fun hh => h (List.cons.inj hh).2)

/-- Decidable equality on association lists of `PVal`. -/
def pvalDictDecEq : (a b : List (PVal × PVal)) → Decidable (a = b)
  | [], [] => isTrue rfl
  | [], _ :: _ => isFalse (fun h => nomatch h)
  | _ :: _, [] => isFalse (fun h => nomatch h)
  | (k, v) :: xs, (k', v') :: ys =>
    match pvalDecEq k k' with
    | isFalse h => isFalse (fun hh => h (Prod.mk.inj (List.cons.inj hh).1).1)
    | isTrue h1 =>
      match pvalDecEq v v' with
      | isFalse h => isFalse (fun hh => h (Prod.mk.inj (List.cons.inj hh).1).2)
      | isTrue h2 =>
        match pvalDictDecEq xs ys with
        | isTrue h3 => isTrue (by rw [h1, h2, h3])
        | isFalse h => isFalse (fun hh => h (List.cons.inj hh).2)

end

instance : DecidableEq PVal := pvalDecEq

/-- Python truthiness of a `PVal` (`if v:`). -/
def pyTruthy : PVal → Bool
  | .str s => !s.isEmpty
  | .int n => decide (n ≠ 0)
  | .bool b => b
  | .null => false
  | .list l => !l.isEmpty
  | .dict d => !d.isEmpty

/-- Python dict assignment `d[k] = v`: updates the value in place if the key
is present (keeping its position), otherwise appends the new entry. -/
def dinsert (d : List (PVal × PVal)) (k v : PVal) : List (PVal × PVal) :=
  match d with
  | [] => [(k, v)]
  | (k', v') :: rest => if k' = k then (k', v) :: rest else (k', v') :: dinsert rest k v

/-- Python dict lookup (keys are unique in any dict built by `dinsert`). -/
def dlookup (d : List (PVal × PVal)) (k : PVal) : Option PVal :=
  match d with
  | [] => none
  | (k', v) :: rest => if k' = k then some v else dlookup rest k

/-- Python `d.get(k)` (default `None`). -/
def dget (d : List (PVal × PVal)) (k : PVal) : PVal :=
  match dlookup d k with
  | some v => v
  | none => .null

/-- Python `d.get(k, dflt)`. -/
def dgetD (d : List (PVal × PVal)) (k dflt : PVal) : PVal :=
  match dlookup d k with
  | some v => v
  | none => dflt

/-- Python `a or b` (first truthy operand, else the second). -/
def pyOr (a b : PVal) : PVal := if pyTruthy a then a else b

/-- Whether a `PVal` may be used as a Python dict key (lists and dicts are
unhashable and raise `TypeError`). -/
def pyHashable : PVal → Bool
  | .list _ => false
  | .dict _ => false
  | _ => true

/-! ## Character classes and basic text helpers -/

/-- Whitespace skipped by Python's `json` scanner (`' '`, `\t`, `\n`, `\r`). -/
def isJWs (c : Char) : Bool := c = ' ' || c = '\t' || c = '\n' || c = '\r'

/-- ASCII whitespace of Python's `str.strip()` and of the regex class `\s`. -/
def isPyWs (c : Char) : Bool :=
  c = ' ' || c = '\t' || c = '\n' || c = '\r' || c = '\x0b' || c = '\x0c'

/-- Strip `isPyWs` characters from both ends (Python `str.strip()`). -/
def pyStrip (t : List Char) : List Char :=
  ((t.dropWhile isPyWs).reverse.dropWhile isPyWs).reverse

/-- Index of the first occurrence of a character. -/
def idxOf? (c : Char) : List Char → Option Nat
  | [] => none
  | x :: xs => if x = c then some 0 else (idxOf? c xs).map (· + 1)

/-- Index of the first occurrence of a character (Python `str.find`). -/
def findChar (c : Char) (t : List Char) : Option Nat := idxOf? c t

/-- Index of the last occurrence of a character (Python `str.rfind`). -/
def rfindChar (c : Char) (t : List Char) : Option Nat :=
  (idxOf? c t.reverse).map (fun i => t.length - 1 - i)

/-- Substring occurrence test (Python `pat in t` on strings). -/
def containsSub (pat t : List Char) : Bool :=
  if pat.isPrefixOf t then true
  else match t with
    | [] => false
    | _ :: tl => containsSub pat tl

/-- Whether the two-character sequence `a` `b` occurs in adjacent positions. -/
def hasAdj (a b : Char) : List Char → Bool
  | x :: y :: rest => (x = a && y = b) || hasAdj a b (y :: rest)
  | _ => false

/-- Whether a character occurs in the text. -/
def hasChar (c : Char) (t : List Char) : Bool := t.any (· = c)

/-- ASCII lower-casing (Python `str.lower()` on the ASCII type names used by
the schema normalizer). -/
def toLowerL (t : List Char) : List Char := t.map Char.toLower

/-! ## Control-character re-escaping (`fix_unescaped_control_chars`) -/

/-- The scanning loop of `fix_unescaped_control_chars` (server.py 1004-1063):
state is (inside-string, escape-pending); inside a string a literal newline,
carriage return or tab becomes its two-character escape, any other control
character becomes a space; everything else passes through. -/
def fixGo : Bool → Bool → List Char → List Char
  | _, _, [] => []
  | inS, true, c :: cs => c :: fixGo inS false cs
  | inS, false, c :: cs =>
    if c = '\\' then '\\' :: fixGo inS true cs
    else if c = '"' then '"' :: fixGo (!inS) false cs
    else if inS && c = '\n' then '\\' :: 'n' :: fixGo inS false cs
    else if inS && c = '\r' then '\\' :: 'r' :: fixGo inS false cs
    else if inS && c = '\t' then '\\' :: 't' :: fixGo inS false cs
    else if inS && decide (c.toNat < 32) then ' ' :: fixGo inS false cs
    else c :: fixGo inS false cs

/-- `fix_unescaped_control_chars` (server.py 1004-1063). -/
def fixCtl (t : List Char) : List Char := fixGo false false t

/-! ## The compliant JSON serializer used to state round-trip claims -/

/-- Hex digit for a value below 16 (lower case, as in `\u00xx` escapes). -/
def hexDigit (n : Nat) : Char :=
  if n < 10 then Char.ofNat (48 + n) else Char.ofNat (87 + n)

/-- Numeric value of a hex digit character. -/
def hexDigitVal (c : Char) : Option Nat :=
  if '0' ≤ c && c ≤ '9' then some (c.toNat - 48)
  else if 'a' ≤ c && c ≤ 'f' then some (c.toNat - 87)
  else if 'A' ≤ c && c ≤ 'F' then some (c.toNat - 55)
  else none

/-- Compliant JSON escaping of one string character. -/
def escChar (c : Char) : List Char :=
  if c = '"' then ['\\', '"']
  else if c = '\\' then ['\\', '\\']
  else if c = '\n' then ['\\', 'n']
  else if c = '\r' then ['\\', 'r']
  else if c = '\t' then ['\\', 't']
  else if c = '\x08' then ['\\', 'b']
  else if c = '\x0c' then ['\\', 'f']
  else if decide (c.toNat < 32) then
    ['\\', 'u', '0', '0', hexDigit (c.toNat / 16), hexDigit (c.toNat % 16)]
  else [c]

/-- Compliant JSON escaping of a string body. -/
def escBody : List Char → List Char
  | [] => []
  | c :: s => escChar c ++ escBody s

/-- One serialized file entry `"key": "value"`. -/
def renderEntry (k v : List Char) : List Char :=
  '"' :: escBody k ++ '"' :: ':' :: ' ' :: '"' :: escBody v ++ ['"']

/-- Serialized file entries joined by `", "`. -/
def renderEntries : List (List Char × List Char) → List Char
  | [] => []
  | [e] => renderEntry e.1 e.2
  | e :: es => renderEntry e.1 e.2 ++ ',' :: ' ' :: renderEntries es

/-- The header `{"files": {` of a serialized files document. -/
def filesHeader : List Char := ("\x7b\"files\": \x7b").toList

/-- A compliant serialization of the document `{"files": F}`. -/
def serializeFilesDoc (F : List (List Char × List Char)) : List Char :=
  filesHeader ++ renderEntries F ++ ['\x7d', '\x7d']

/-- A well-formed files document cut off immediately after the N-th complete
entry's closing quote and the comma following it (the document determined by
its first N entries). -/
def truncDoc (F : List (List Char × List Char)) : List Char :=
  filesHeader ++ renderEntries F ++ [',']

/-! ## The trailing-comma repair `re.sub(r',(\s*[}\]])', r'\1', text)` -/

/-- Lookahead after a comma: an optional whitespace run followed by a closing
brace or bracket (the rest of a match of the trailing-comma pattern). -/
def rtcLook : List Char → Option (List Char × Char × List Char)
  | [] => none
  | c :: cs =>
    if c = '\x7d' || c = ']' then some ([], c, cs)
    else if isPyWs c then
      match rtcLook cs with
      | some (w, b, r) => some (c :: w, b, r)
      | none => none
    else none

/-- Fueled scanning loop of the trailing-comma rewrite (the fuel, at least
the text length, only forces termination; exhausted fuel returns the rest
unchanged). -/
def rtcF : Nat → List Char → List Char
  | 0, t => t
  | _ + 1, [] => []
  | f + 1, c :: cs =>
    if c = ',' then
      match rtcLook cs with
      | some (w, b, r) => w ++ b :: rtcF f r
      | none => ',' :: rtcF f cs
    else c :: rtcF f cs

/-- The left-to-right rewriting `re.sub(r',(\s*[}\]])', r'\1', text)`
(server.py line 1000 and line 1120): every comma followed by optional
whitespace and a closing brace/bracket is deleted. -/
def rtc (t : List Char) : List Char := rtcF t.length t

/-! ## The comment-removal rewrites of `fix_json_common_issues` -/

/-- Drop characters up to (but not including) the next newline: the effect of
one match of `re.sub(r'//.*?$', '', text, flags=re.MULTILINE)`. -/
def dropToNl : List Char → List Char
  | [] => []
  | c :: cs => if c = '\n' then c :: cs else dropToNl cs

/-- Fueled scanning loop of the line-comment rewrite. -/
def slcF : Nat → List Char → List Char
  | 0, t => t
  | _ + 1, [] => []
  | _ + 1, [c] => [c]
  | f + 1, c1 :: c2 :: cs =>
    if c1 = '/' && c2 = '/' then slcF f (dropToNl cs)
    else c1 :: slcF f (c2 :: cs)

/-- `re.sub(r'//.*?$', '', text, flags=re.MULTILINE)` (server.py 1122). -/
def slc (t : List Char) : List Char := slcF t.length t

/-- Scan for the closing `*/` of a block comment, returning the text after
it. -/
def dropToStarSlash : List Char → Option (List Char)
  | [] => none
  | [_] => none
  | c1 :: c2 :: cs =>
    if c1 = '*' && c2 = '/' then some cs else dropToStarSlash (c2 :: cs)

/-- Fueled scanning loop of the block-comment rewrite. -/
def sbcF : Nat → List Char → List Char
  | 0, t => t
  | _ + 1, [] => []
  | _ + 1, [c] => [c]
  | f + 1, c1 :: c2 :: cs =>
    if c1 = '/' && c2 = '*' then
      match dropToStarSlash cs with
      | some rest => sbcF f rest
      | none => c1 :: sbcF f (c2 :: cs)
    else c1 :: sbcF f (c2 :: cs)

/-- `re.sub(r'/\*.*?\*/', '', text, flags=re.DOTALL)` (server.py 1123). -/
def sbc (t : List Char) : List Char := sbcF t.length t

/-! ## The missing-comma rewrites of `fix_json_common_issues` -/

/-- After the closer: optional whitespace then a double quote (tail of a match
of `"..\s*}\s*"`), returning the text after that quote. -/
def mcLook2 : List Char → Option (List Char)
  | [] => none
  | c :: cs => if c = '"' then some cs else if isPyWs c then mcLook2 cs else none

/-- After the opening quote of a match of `"\s*}\s*"` (or the bracket
variant): optional whitespace, the closer, optional whitespace, then a double
quote; returns the text after the final quote. -/
def mcLook (closer : Char) : List Char → Option (List Char)
  | [] => none
  | c :: cs =>
    if c = closer then mcLook2 cs
    else if isPyWs c then mcLook closer cs
    else none

/-- Fueled scanning loop of the missing-comma rewrite. -/
def fmcF (closer : Char) : Nat → List Char → List Char
  | 0, t => t
  | _ + 1, [] => []
  | f + 1, c :: cs =>
    if c = '"' then
      match mcLook closer cs with
      | some rest => '"' :: closer :: ',' :: '\n' :: '"' :: fmcF closer f rest
      | none => '"' :: fmcF closer f cs
    else c :: fmcF closer f cs

/-- The missing-comma rewrite `re.sub(r'"\s*}\s*"', '"},\n"', text)`
(server.py 1128) and its bracket variant (line 1129), parametrized by the
closer character. -/
def fmc (closer : Char) (t : List Char) : List Char := fmcF closer t.length t

/-- `fix_json_common_issues` (server.py 1117-1131): trailing-comma removal,
line- and block-comment removal, the two missing-comma rewrites, then
`strip()`. -/
def fixCommon (t : List Char) : List Char :=
  pyStrip (fmc ']' (fmc '\x7d' (sbc (slc (rtc t)))))

/-! ## Fence stripping and outer-brace isolation (server.py 975-1000) -/

/-- Index of the first occurrence of `c` at or after position `i`. -/
def findCharFrom (c : Char) (t : List Char) (i : Nat) : Option Nat :=
  (idxOf? c (t.drop i)).map (· + i)

/-- Markdown-fence stripping (server.py 975-986): `strip`, drop a leading
```` ```json ```` or ```` ``` ```` marker, drop a trailing ```` ``` ````
marker, re-stripping after each removal. -/
def stripFences (t0 : List Char) : List Char :=
  let t := pyStrip t0
  let t :=
    if (("```json").toList).isPrefixOf t then pyStrip (t.drop 7)
    else if (("```").toList).isPrefixOf t then pyStrip (t.drop 3)
    else t
  if (("```").toList).isSuffixOf t then pyStrip (t.take (t.length - 3)) else t

/-- Outer-object isolation (server.py 990-994): slice from the first `{` to
the last `}` inclusive, when such a slice is non-degenerate. -/
def outerSlice (t : List Char) : List Char :=
  match findChar '\x7b' t, rfindChar '\x7d' t with
  | some s, some e => if s < e + 1 then (t.drop s).take (e + 1 - s) else t
  | _, _ => t

/-- The full preprocessing applied before the strict parse (server.py
975-1067): strip, fence stripping, outer-brace isolation, strip,
trailing-comma removal, control-character re-escaping. -/
def preprocess (raw : List Char) : List Char :=
  fixCtl (rtc (pyStrip (outerSlice (stripFences raw))))

/-! ## `find_json_object` (server.py 1238-1275) -/

/-- The scanning loop of `find_json_object`: brace counting with
string/escape awareness, returning the slice from the first `{` through the
brace that balances it. -/
def fjoGo : Bool → Bool → Nat → List Char → List Char → Option (List Char)
  | _, _, _, _, [] => none
  | inS, true, n, acc, c :: cs => fjoGo inS false n (c :: acc) cs
  | inS, false, n, acc, c :: cs =>
    if c = '\\' then fjoGo inS true n (c :: acc) cs
    else if c = '"' then fjoGo (!inS) false n (c :: acc) cs
    else if !inS && c = '\x7b' then fjoGo inS false (n + 1) (c :: acc) cs
    else if !inS && c = '\x7d' then
      if n = 1 then some ((c :: acc).reverse)
      else fjoGo inS false (n - 1) (c :: acc) cs
    else fjoGo inS false n (c :: acc) cs

/-- `find_json_object` (server.py 1238-1275). -/
def fjo (t : List Char) : Option (List Char) :=
  match t.dropWhile (· ≠ '\x7b') with
  | [] => none
  | c :: cs => fjoGo false false 1 [c] cs

/-! ## `smart_truncate_json` (server.py 1133-1195) -/

/-- The forward scan of `smart_truncate_json` over the inside of the files
object.  State: in-string, escape-pending, curly-brace depth, the reversed
prefix ending at the last depth-1 comma (if any), and the reversed prefix of
everything consumed so far.  Square brackets are not tracked. -/
def stGo : Bool → Bool → Nat → Option (List Char) → List Char → List Char →
    Option (List Char)
  | _, _, _, last, _, [] =>
    match last with
    | some p => some (p ++ ('\n' :: ' ' :: ' ' :: '\x7d' :: '\n' :: '\x7d' :: []))
    | none => none
  | inS, true, d, last, acc, c :: cs => stGo inS false d last (c :: acc) cs
  | inS, false, d, last, acc, c :: cs =>
    if c = '\\' then stGo inS true d last (c :: acc) cs
    else if c = '"' then stGo (!inS) false d last (c :: acc) cs
    else if !inS && c = '\x7b' then stGo inS false (d + 1) last (c :: acc) cs
    else if !inS && c = '\x7d' then
      if d = 1 then some ((c :: acc).reverse ++ ['\x7d'])
      else stGo inS false (d - 1) last (c :: acc) cs
    else if !inS && c = ',' && d = 1 then stGo inS false d (some acc.reverse) (c :: acc) cs
    else stGo inS false d last (c :: acc) cs

/-- Index of the first occurrence of `pat` as a contiguous subsequence. -/
def findSubIdx (pat : List Char) (t : List Char) : Option Nat :=
  if pat.isPrefixOf t then some 0
  else match t with
    | [] => none
    | _ :: tl => (findSubIdx pat tl).map (· + 1)

/-- `smart_truncate_json` (server.py 1133-1195): locate `"files"` and its
opening brace, scan forward tracking string/escape state and curly depth, and
either return the normally closed object (plus an extra `}`) or truncate at
the last depth-1 comma and append the closing sequence. -/
def smartTruncate (t : List Char) : Option (List Char) :=
  match findSubIdx (("\"files\"").toList) t with
  | none => none
  | some fs =>
    match findCharFrom '\x7b' t fs with
    | none => none
    | some bi => stGo false false 1 none (t.take (bi + 1)).reverse (t.drop (bi + 1))

/-! ## The strategy-3 regex `\{[^{}]*(?:\{[^{}]*\}[^{}]*)*\}` (server.py 1387) -/

/-- Matching attempt of the strategy-3 pattern from a position just after an
opening brace: succeeds at the first brace that rebalances the opening one,
provided nesting never exceeds two levels (the `Bool` argument is true at
depth two). -/
def p3Go : Bool → List Char → List Char → Option (List Char × List Char)
  | false, _, [] => none
  | false, acc, c :: cs =>
    if c = '\x7d' then some (((c :: acc).reverse), cs)
    else if c = '\x7b' then p3Go true (c :: acc) cs
    else p3Go false (c :: acc) cs
  | true, _, [] => none
  | true, acc, c :: cs =>
    if c = '\x7d' then p3Go false (c :: acc) cs
    else if c = '\x7b' then none
    else p3Go true (c :: acc) cs

/-- Fueled loop of the strategy-3 `findall`. -/
def pat3FindallF : Nat → List Char → List (List Char)
  | 0, _ => []
  | _ + 1, [] => []
  | f + 1, c :: cs =>
    if c = '\x7b' then
      match p3Go false [c] cs with
      | some (m, rest) => m :: pat3FindallF f rest
      | none => pat3FindallF f cs
    else pat3FindallF f cs

/-- `re.findall(r'\{[^{}]*(?:\{[^{}]*\}[^{}]*)*\}', text, re.DOTALL)`:
left-to-right non-overlapping matches of the strategy-3 pattern. -/
def pat3Findall (t : List Char) : List (List Char) := pat3FindallF t.length t

/-- Stable insertion keeping longer strings first (equal lengths keep their
original order, as Python's stable `sorted(key=len, reverse=True)`). -/
def insertLenDesc (x : List Char) : List (List Char) → List (List Char)
  | [] => [x]
  | y :: ys => if x.length < y.length then y :: insertLenDesc x ys else x :: y :: ys

/-- `sorted(matches, key=len, reverse=True)` (stable). -/
def sortLenDesc : List (List Char) → List (List Char)
  | [] => []
  | x :: xs => insertLenDesc x (sortLenDesc xs)

/-! ## Python `str()` / `repr()` of parsed JSON values

Used by the content-shape coercion, which calls `str(value)` on nested
dict/list file bodies and on list elements. -/

/-- The single-quote character. -/
def qChar : Char := Char.ofNat 39

/-- One character of a Python string repr, with quote character `q`. -/
def reprEscChar (q c : Char) : List Char :=
  if c = '\\' then ['\\', '\\']
  else if c = q then ['\\', q]
  else if c = '\n' then ['\\', 'n']
  else if c = '\r' then ['\\', 'r']
  else if c = '\t' then ['\\', 't']
  else if decide (c.toNat < 32) || c.toNat = 127 then
    ['\\', 'x', hexDigit (c.toNat / 16), hexDigit (c.toNat % 16)]
  else [c]

/-- Model of Python `repr()` on strings: single-quoted unless the string
contains a single quote but no double quote. -/
def reprStrPy (s : List Char) : List Char :=
  let q := if hasChar qChar s && !hasChar '"' s then '"' else qChar
  q :: s.foldr (fun c acc => reprEscChar q c ++ acc) [] ++ [q]

mutual

/-- Model of Python `repr()` on JSON-shaped values (dict/list reprs quote
their strings). -/
def pyRepr : PVal → List Char
  | .str s => reprStrPy s
  | .int n => (toString n).toList
  | .bool b => if b then ("True").toList else ("False").toList
  | .null => ("None").toList
  | .list l => '[' :: pyReprElems l ++ [']']
  | .dict d => '\x7b' :: pyReprItems d ++ ['\x7d']

/-- Comma-separated element reprs of a list. -/
def pyReprElems : List PVal → List Char
  | [] => []
  | [v] => pyRepr v
  | v :: vs => pyRepr v ++ ',' :: ' ' :: pyReprElems vs

/-- Comma-separated `key: value` reprs of a dict. -/
def pyReprItems : List (PVal × PVal) → List Char
  | [] => []
  | [(k, v)] => pyRepr k ++ ':' :: ' ' :: pyRepr v
  | (k, v) :: kvs => pyRepr k ++ ':' :: ' ' :: pyRepr v ++ ',' :: ' ' :: pyReprItems kvs

end

/-- Model of Python `str()` on JSON-shaped values. -/
def pyStr : PVal → List Char
  | .str s => s
  | v => pyRepr v

/-! ## The strict JSON parser (model of Python `json.loads`)

Number literals are modelled as integers; fractional/exponent literals and
`NaN`/`Infinity` are outside the model (no claim exercises them), as are lone
surrogate `\u` escapes (unrepresentable in `Char`). -/

/-- Whitespace skipping of the `json` scanner. -/
def skipWs (t : List Char) : List Char := t.dropWhile isJWs

/-- Value of a single-character JSON escape. -/
def unescapeC (c : Char) : Option Char :=
  if c = '"' then some '"'
  else if c = '\\' then some '\\'
  else if c = '/' then some '/'
  else if c = 'n' then some '\n'
  else if c = 'r' then some '\r'
  else if c = 't' then some '\t'
  else if c = 'b' then some '\x08'
  else if c = 'f' then some '\x0c'
  else none

/-- Combined value of four hex digit characters. -/
def hex4 (a b c d : Char) : Option Nat :=
  match hexDigitVal a, hexDigitVal b, hexDigitVal c, hexDigitVal d with
  | some x, some y, some z, some w => some (((x * 16 + y) * 16 + z) * 16 + w)
  | _, _, _, _ => none

/-- Decode a `\uXXXX` escape from the four hex digits on, combining
surrogate pairs (lone surrogates are unrepresentable in `Char` and outside
the model); returns the decoded character and the remaining text. -/
def parseUEscape : List Char → Option (Char × List Char)
  | h1 :: h2 :: h3 :: h4 :: cs3 =>
    match hex4 h1 h2 h3 h4 with
    | none => none
    | some n =>
      if n < 0xD800 ∨ 0xE000 ≤ n then some (Char.ofNat n, cs3)
      else if n < 0xDC00 then
        match cs3 with
        | e2 :: u2 :: g1 :: g2 :: g3 :: g4 :: cs4 =>
          if e2 = '\\' && u2 = 'u' then
            match hex4 g1 g2 g3 g4 with
            | some m =>
              if 0xDC00 ≤ m ∧ m < 0xE000 then
                some (Char.ofNat (0x10000 + (n - 0xD800) * 0x400 + (m - 0xDC00)), cs4)
              else none
            | none => none
          else none
        | _ => none
      else none
  | _ => none

/-- Parse the body of a string literal (after the opening quote), returning
the decoded content and the text after the closing quote.  Unescaped control
characters are rejected (Python `json` strict mode).  The fuel (at least the
text length suffices) only forces termination. -/
def parseStringBody : Nat → List Char → Option (List Char × List Char)
  | 0, _ => none
  | _ + 1, [] => none
  | f + 1, c :: cs =>
    if c = '"' then some ([], cs)
    else if c = '\\' then
      match cs with
      | [] => none
      | e :: cs2 =>
        if e = 'u' then
          match parseUEscape cs2 with
          | some (d, cs3) => (parseStringBody f cs3).map (fun p => (d :: p.1, p.2))
          | none => none
        else
          match unescapeC e with
          | some d => (parseStringBody f cs2).map (fun p => (d :: p.1, p.2))
          | none => none
    else if decide (c.toNat < 32) then none
    else (parseStringBody f cs).map (fun p => (c :: p.1, p.2))

/-- Parse an integer numeral (JSON number grammar restricted to integers;
a following `.`/`e`/`E` makes the literal fractional and is outside the
model, so it is rejected). -/
def parseNum (cs : List Char) : Option (PVal × List Char) :=
  let p := match cs with
    | '-' :: r => (true, r)
    | _ => (false, cs)
  match p.2 with
  | [] => none
  | c :: _ =>
    if !c.isDigit then none
    else
      let ds := p.2.takeWhile Char.isDigit
      let rest := p.2.dropWhile Char.isDigit
      if 1 < ds.length && c = '0' then none
      else
        match rest with
        | '.' :: _ => none
        | 'e' :: _ => none
        | 'E' :: _ => none
        | _ =>
          let n : Nat := ds.foldl (fun a d => a * 10 + (d.toNat - 48)) 0
          some (.int (if p.1 then -(n : Int) else (n : Int)), rest)

mutual

/-- Parse one JSON value (model of the `json.loads` scanner), fueled. -/
def parseVal : Nat → List Char → Option (PVal × List Char)
  | 0, _ => none
  | f + 1, cs =>
    match skipWs cs with
    | [] => none
    | '"' :: r => (parseStringBody (r.length + 1) r).map (fun p => (.str p.1, p.2))
    | '\x7b' :: r => parseObj f true [] r
    | '[' :: r => parseArr f true [] r
    | 't' :: 'r' :: 'u' :: 'e' :: r => some (.bool true, r)
    | 'f' :: 'a' :: 'l' :: 's' :: 'e' :: r => some (.bool false, r)
    | 'n' :: 'u' :: 'l' :: 'l' :: r => some (.null, r)
    | c :: r => if c = '-' || c.isDigit then parseNum (c :: r) else none

/-- Parse the members of an object after its opening brace (or after a
comma); `first` is true just after the opening brace, where `}` closes an
empty object.  Members are inserted with Python-dict update semantics. -/
def parseObj : Nat → Bool → List (PVal × PVal) → List Char → Option (PVal × List Char)
  | 0, _, _, _ => none
  | f + 1, first, acc, cs =>
    match skipWs cs with
    | '\x7d' :: r => if first then some (.dict acc, r) else none
    | '"' :: r =>
      match parseStringBody (r.length + 1) r with
      | none => none
      | some (k, r1) =>
        match skipWs r1 with
        | ':' :: r2 =>
          match parseVal f r2 with
          | none => none
          | some (v, r3) =>
            match skipWs r3 with
            | ',' :: r4 => parseObj f false (dinsert acc (.str k) v) r4
            | '\x7d' :: r4 => some (.dict (dinsert acc (.str k) v), r4)
            | _ => none
        | _ => none
    | _ => none

/-- Parse the elements of an array after its opening bracket (or after a
comma). -/
def parseArr : Nat → Bool → List PVal → List Char → Option (PVal × List Char)
  | 0, _, _, _ => none
  | f + 1, first, acc, cs =>
    match skipWs cs with
    | ']' :: r => if first then some (.list acc.reverse, r) else none
    | _ =>
      match parseVal f cs with
      | none => none
      | some (v, r1) =>
        match skipWs r1 with
        | ',' :: r2 => parseArr f false (v :: acc) r2
        | ']' :: r2 => some (.list (v :: acc).reverse, r2)
        | _ => none

end

/-- Model of `json.loads`: parse one value and require only whitespace after
it. -/
def jsonLoads (t : List Char) : Option PVal :=
  match parseVal (t.length + 1) t with
  | some (v, rest) => if (skipWs rest).isEmpty then some v else none
  | none => none

/-! ## The recovery cascade (server.py 1071-1416) -/

/-- Failure modes of the recovery cascade as observable from the caller:
`emptyFiles` is the uncaught `ValueError("API returned empty files
dictionary")` of line 1106, `attrError` an uncaught `AttributeError`
(`result.get`/`files.items()` on a non-dict), `unrecoverable` the final
`ValueError` of line 1410 raised after all strategies failed. -/
inductive RecErr : Type where
  | emptyFiles
  | attrError
  | unrecoverable
deriving DecidableEq, Repr

/-- Decidable equality on `Except` values (by pattern matching, so that it
evaluates by kernel reduction). -/
def exceptDecEq {ε α : Type} [DecidableEq ε] [DecidableEq α] :
    (a b : Except ε α) → Decidable (a = b)
  | .error e1, .error e2 =>
    match decEq e1 e2 with
    | isTrue h => isTrue (by rw [h])
    | isFalse h => isFalse (fun hh => h (Except.error.inj hh))
  | .error _, .ok _ => isFalse (fun h => nomatch h)
  | .ok _, .error _ => isFalse (fun h => nomatch h)
  | .ok a1, .ok a2 =>
    match decEq a1 a2 with
    | isTrue h => isTrue (by rw [h])
    | isFalse h => isFalse (fun hh => h (Except.ok.inj hh))

instance {ε α : Type} [DecidableEq ε] [DecidableEq α] : DecidableEq (Except ε α) :=
  exceptDecEq

/-- `result.get('files', {})`: requires `result` to be a dict
(`AttributeError` otherwise). -/
def resGetFiles : PVal → Except RecErr PVal
  | .dict d => .ok (dgetD d (.str (("files").toList)) (.dict []))
  | _ => .error .attrError

/-- Join text lines with newlines. -/
def joinNl : List (List Char) → List Char
  | [] => []
  | [l] => l
  | l :: ls => l ++ '\n' :: joinNl ls

/-- Content-shape coercion of one file body (server.py 1084-1099): a dict
keeps its string values and stringifies nested dict/list values (other
values are skipped), joined by newlines; a list stringifies its elements and
joins them; anything else passes through unchanged. -/
def coerceFile : PVal → PVal
  | .dict d => .str (joinNl (d.filterMap (fun kv =>
      match kv.2 with
      | .str s => some s
      | .dict _ => some (pyStr kv.2)
      | .list _ => some (pyStr kv.2)
      | _ => none)))
  | .list l => .str (joinNl (l.map pyStr))
  | v => v

/-- Content-shape coercion over a parsed files mapping. -/
def coerceFiles (d : List (PVal × PVal)) : List (PVal × PVal) :=
  d.map (fun kv => (kv.1, coerceFile kv.2))

/-- Strategy 1's smart-truncation fallback (server.py 1325-1339): truncate
the extracted object, re-parse, and accept a truthy `files` value without
coercion. -/
def strat1Trunc (ext : List Char) : Except RecErr (Option PVal) :=
  match smartTruncate ext with
  | none => .ok none
  | some tj =>
    match jsonLoads tj with
    | none => .ok none
    | some result =>
      match resGetFiles result with
      | .error e => .error e
      | .ok files => if pyTruthy files then .ok (some files) else .ok none

/-- Strategy 1 (server.py 1277-1339): balanced-brace extraction, common-issue
fixes, parse, coercion; on parse failure or a falsy `files`, smart
truncation of the extracted text. -/
def strat1 (t : List Char) : Except RecErr (Option PVal) :=
  match fjo t with
  | none => .ok none
  | some ext =>
    match jsonLoads (fixCommon ext) with
    | some result =>
      match resGetFiles result with
      | .error e => .error e
      | .ok files =>
        match files with
        | .dict d =>
          if d.isEmpty then strat1Trunc ext
          else .ok (some (.dict (coerceFiles d)))
        | _ => .error .attrError
    | none => strat1Trunc ext

/-- Strategy 2 (server.py 1341-1383): common-issue fixes on the whole
response, parse, coercion; on parse failure, smart truncation of the cleaned
response. -/
def strat2 (t : List Char) : Except RecErr (Option PVal) :=
  let cleaned := fixCommon t
  match jsonLoads cleaned with
  | some result =>
    match resGetFiles result with
    | .error e => .error e
    | .ok files =>
      if pyTruthy files then
        match files with
        | .dict d => .ok (some (.dict (coerceFiles d)))
        | _ => .error .attrError
      else .ok none
  | none =>
    match smartTruncate cleaned with
    | none => .ok none
    | some tj =>
      match jsonLoads tj with
      | none => .ok none
      | some result =>
        match resGetFiles result with
        | .error e => .error e
        | .ok files => if pyTruthy files then .ok (some files) else .ok none

/-- Strategy 3's loop over regex matches sorted by length (server.py
1385-1400). -/
def strat3Go : List (List Char) → Except RecErr (Option PVal)
  | [] => .ok none
  | m :: ms =>
    match jsonLoads (fixCommon m) with
    | none => strat3Go ms
    | some result =>
      match resGetFiles result with
      | .error e => .error e
      | .ok files => if pyTruthy files then .ok (some files) else strat3Go ms

/-- Strategy 3 (server.py 1385-1400). -/
def strat3 (t : List Char) : Except RecErr (Option PVal) :=
  strat3Go (sortLenDesc (pat3Findall t))

/-- The Recovery Engine (server.py 975-1416): preprocessing, strict parse
with coercion and the uncaught empty-files `ValueError`, then the fallback
strategies, ending in the final `ValueError` (the spec's
`UnrecoverableFormat`). -/
def recover (raw : List Char) : Except RecErr PVal :=
  let t := preprocess raw
  match jsonLoads t with
  | some result =>
    (match resGetFiles result with
     | .error e => .error e
     | .ok files =>
       if pyTruthy files then
         match files with
         | .dict d => .ok (.dict (coerceFiles d))
         | _ => .error .attrError
       else .error .emptyFiles)
  | none =>
    match strat1 t with
    | .error e => .error e
    | .ok (some files) => .ok files
    | .ok none =>
      match strat2 t with
      | .error e => .error e
      | .ok (some files) => .ok files
      | .ok none =>
        match strat3 t with
        | .error e => .error e
        | .ok (some files) => .ok files
        | .ok none => .error .unrecoverable

/-! ## The Schema Normalizer (`normalize_schema`, server.py 98-226) -/

/-- Exceptions `normalize_schema` can raise: `typeErr` models `TypeError`
(membership test on a non-container, subscripting with a bad key type,
unhashable dict key), `attrErr` models `AttributeError` (`.items()` on a
non-dict). -/
inductive PyErr : Type where
  | typeErr
  | attrErr
deriving DecidableEq, Repr

/-- Python `needle in container`: key membership for dicts, element
membership for lists, substring for strings, `TypeError` otherwise. -/
def pyIn (needle : PVal) : PVal → Except PyErr Bool
  | .dict d => .ok (d.any (fun kv => kv.1 = needle))
  | .list l => .ok (l.any (fun x => x = needle))
  | .str s =>
    match needle with
    | .str ns => .ok (containsSub ns s)
    | _ => .error .typeErr
  | _ => .error .typeErr

/-- Python subscription `container[key]` as used by `normalize_schema`
(string keys into dicts; anything else raises `TypeError`). -/
def pySub (container key : PVal) : Except PyErr PVal :=
  match container with
  | .dict d =>
    match dlookup d key with
    | some v => .ok v
    | none => .error .typeErr
  | _ => .error .typeErr

/-- Python `.items()`: requires a dict (`AttributeError` otherwise). -/
def pyItems : PVal → Except PyErr (List (PVal × PVal))
  | .dict d => .ok d
  | _ => .error .attrErr

/-- The type-tag canonicalization chain of `process_model` (server.py
157-163) and of the already-normalized branch (196-202), applied to the
lowered string form of a raw type. -/
def normTypeTag (v : List Char) : List Char :=
  if containsSub (("int").toList) v then ("integer").toList
  else if containsSub (("bool").toList) v then ("boolean").toList
  else if containsSub (("date").toList) v && containsSub (("time").toList) v then
    ("datetime").toList
  else if containsSub (("decimal").toList) v || containsSub (("double").toList) v ||
      containsSub (("number").toList) v then ("float").toList
  else if containsSub (("text").toList) v then ("text").toList
  else ("string").toList

/-- `v = str(v).lower()` followed by the canonicalization chain. -/
def canonType (v : PVal) : List Char := normTypeTag (toLowerL (pyStr v))

/-- Type normalization over an extracted field dict (`clean_fields`). -/
def cleanFields (ff : List (PVal × PVal)) : List (PVal × PVal) :=
  ff.map (fun kv => (kv.1, .str (canonType kv.2)))

/-- The list case of `extract_fields` (server.py 110-117): each dict element
contributes `name`/`field`/`column` and `type`/`datatype` (default
`'string'`); an unhashable name raises `TypeError` at the dict assignment. -/
def extractFieldsList : List PVal → List (PVal × PVal) → Except PyErr (List (PVal × PVal))
  | [], acc => .ok acc
  | f :: fs, acc =>
    match f with
    | .dict fd =>
      let name := pyOr (dget fd (.str (("name").toList)))
        (pyOr (dget fd (.str (("field").toList))) (dget fd (.str (("column").toList))))
      let dtype := pyOr (dget fd (.str (("type").toList)))
        (pyOr (dget fd (.str (("datatype").toList))) (.str (("string").toList)))
      if pyTruthy name then
        if pyHashable name then extractFieldsList fs (dinsert acc name dtype)
        else .error .typeErr
      else extractFieldsList fs acc
    | _ => extractFieldsList fs acc

/-- The dict case of `extract_fields` (server.py 119-125): string values are
taken as types, dict values contribute their `type` key (default
`'string'`), anything else is skipped. -/
def extractFieldsDict : List (PVal × PVal) → List (PVal × PVal) → List (PVal × PVal)
  | [], acc => acc
  | (name, info) :: rest, acc =>
    match info with
    | .str s => extractFieldsDict rest (dinsert acc name (.str s))
    | .dict idict =>
      extractFieldsDict rest
        (dinsert acc name (dgetD idict (.str (("type").toList)) (.str (("string").toList))))
    | _ => extractFieldsDict rest acc

/-- `extract_fields` (server.py 106-127). -/
def extractFields : PVal → Except PyErr (List (PVal × PVal))
  | .list items => extractFieldsList items []
  | .dict d => .ok (extractFieldsDict d [])
  | _ => .ok []

/-- The field-container probe keys, in order (server.py 132). -/
def fieldKeys : List (List Char) :=
  [("fields").toList, ("properties").toList, ("attributes").toList,
   ("columns").toList, ("Fields").toList, ("Properties").toList]

/-- `for key in field_keys: if key in model_data: ... break`. -/
def findFieldContainer (d : List (PVal × PVal)) : List (List Char) → Option PVal
  | [] => none
  | k :: ks =>
    match dlookup d (.str k) with
    | some v => some v
    | none => findFieldContainer d ks

/-- `is_simple`: every value of the descriptor is a string or a dict
(server.py 149). -/
def isSimpleModel (d : List (PVal × PVal)) : Bool :=
  d.all (fun kv => match kv.2 with
    | .str _ => true
    | .dict _ => true
    | _ => false)

/-- The final commit check of `process_model` (server.py 153-165): a model is
produced only when the name is truthy and the extracted fields are
non-empty; an unhashable name raises `TypeError` at the `normalized`
assignment. -/
def commitModel (mn : PVal) (ff : List (PVal × PVal)) :
    Except PyErr (Option (PVal × List (PVal × PVal))) :=
  if pyTruthy mn && !ff.isEmpty then
    if pyHashable mn then .ok (some (mn, cleanFields ff)) else .error .typeErr
  else .ok none

/-- The name probe of `process_model` (server.py 136-138): a falsy caller
name is replaced by `name`/`model`/`title` from the descriptor. -/
def probeName (mn0 : PVal) (d : List (PVal × PVal)) : PVal :=
  if pyTruthy mn0 then mn0
  else pyOr (dget d (.str (("name").toList)))
    (pyOr (dget d (.str (("model").toList))) (dget d (.str (("title").toList))))

/-- `process_model` (server.py 129-165): name probing, field-container
probing, the simple-format fallback, then the commit check.  Returns the
entry to add to `normalized`, if any. -/
def processModel (mn0 : PVal) (md : PVal) : Except PyErr (Option (PVal × List (PVal × PVal))) :=
  match md with
  | .dict d =>
    match findFieldContainer d fieldKeys with
    | some fd =>
      match extractFields fd with
      | .error e => .error e
      | .ok ff =>
        if ff.isEmpty && pyTruthy (probeName mn0 d) && isSimpleModel d then
          match extractFields (.dict d) with
          | .error e => .error e
          | .ok ff2 => commitModel (probeName mn0 d) ff2
        else commitModel (probeName mn0 d) ff
    | none =>
      if pyTruthy (probeName mn0 d) && isSimpleModel d then
        match extractFields (.dict d) with
        | .error e => .error e
        | .ok ff2 => commitModel (probeName mn0 d) ff2
      else commitModel (probeName mn0 d) []
  | _ => .ok none

/-- Strategy 1 of `normalize_schema` (server.py 168-170): fold
`process_model` over the elements of an array input. -/
def processList : List PVal → List (PVal × PVal) → Except PyErr (List (PVal × PVal))
  | [], acc => .ok acc
  | item :: rest, acc =>
    match processModel .null item with
    | .error e => .error e
    | .ok none => processList rest acc
    | .ok (some (mn, cf)) => processList rest (dinsert acc mn (.dict cf))

/-- Fold `process_model` over named descriptors (OpenAPI/Swagger containers
and the map-of-models fallback). -/
def processNamed : List (PVal × PVal) → List (PVal × PVal) → Except PyErr (List (PVal × PVal))
  | [], acc => .ok acc
  | (name, data) :: rest, acc =>
    match processModel name data with
    | .error e => .error e
    | .ok none => processNamed rest acc
    | .ok (some (mn, cf)) => processNamed rest (dinsert acc mn (.dict cf))

/-- The already-normalized test (server.py 184-189): non-empty, and every
value is a dict whose values are all strings. -/
def isAlreadyNormalized (d : List (PVal × PVal)) : Bool :=
  !d.isEmpty && d.all (fun kv => match kv.2 with
    | .dict f => f.all (fun kv2 => match kv2.2 with
        | .str _ => true
        | _ => false)
    | _ => false)

/-- The already-normalized branch (server.py 191-204): normalize the types of
every model in place (values are dicts here, guarded by
`isAlreadyNormalized`; non-dict values contribute nothing). -/
def cleanNormalized : List (PVal × PVal) → List (PVal × PVal) → List (PVal × PVal)
  | [], acc => acc
  | (mn, v) :: rest, acc =>
    match v with
    | .dict f => cleanNormalized rest (dinsert acc mn (.dict (cleanFields f)))
    | _ => cleanNormalized rest acc

/-- The non-OpenAPI dict branches of `normalize_schema` (server.py 178-215):
`definitions`, already-normalized, single-model, map-of-models. -/
def normCoreDictRest (d : List (PVal × PVal)) : Except PyErr (List (PVal × PVal)) :=
  if d.any (fun kv => kv.1 = .str (("definitions").toList)) then
    match pyItems (dget d (.str (("definitions").toList))) with
    | .error e => .error e
    | .ok entries => processNamed entries []
  else if isAlreadyNormalized d then .ok (cleanNormalized d [])
  else
    match processModel .null (.dict d) with
    | .error e => .error e
    | .ok r =>
      let n0 := match r with
        | some (mn, cf) => [(mn, PVal.dict cf)]
        | none => []
      if n0.isEmpty then processNamed d [] else .ok n0

/-- The `normalized` dict computed by `normalize_schema` before its final
fallbacks (server.py 104-215). -/
def normCore (schema : PVal) : Except PyErr (List (PVal × PVal)) :=
  match schema with
  | .list items => processList items []
  | .dict d =>
    if d.any (fun kv => kv.1 = .str (("components").toList)) then
      match pyIn (.str (("schemas").toList)) (dget d (.str (("components").toList))) with
      | .error e => .error e
      | .ok true =>
        match pySub (dget d (.str (("components").toList))) (.str (("schemas").toList)) with
        | .error e => .error e
        | .ok schemas =>
          match pyItems schemas with
          | .error e => .error e
          | .ok entries => processNamed entries []
      | .ok false => normCoreDictRest d
    else normCoreDictRest d
  | _ => .ok []

/-- `normalize_schema` (server.py 98-226): the normalization strategies, the
last-resort reuse of an all-dict-valued input, and the identity fallback
`return normalized if normalized else schema`. -/
def normSchema (schema : PVal) : Except PyErr PVal :=
  match normCore schema with
  | .error e => .error e
  | .ok n =>
    let n2 :=
      if n.isEmpty then
        match schema with
        | .dict d =>
          if !d.isEmpty && d.all (fun kv => match kv.2 with
              | .dict _ => true
              | _ => false) then d
          else []
        | _ => []
      else n
    .ok (if n2.isEmpty then schema else .dict n2)

/-! ## Helper notions used by the theorem statements -/

/-- Whether a `PVal` is a plain text string. -/
def isStrVal : PVal → Bool
  | .str _ => true
  | _ => false

/-- The file entries inserted into a parsed object, in order, with
Python-dict update semantics (the value `files` takes in the parser). -/
def insEntries (acc : List (PVal × PVal)) (es : List (List Char × List Char)) :
    List (PVal × PVal) :=
  es.foldl (fun a e => dinsert a (.str e.1) (.str e.2)) acc

/-- The entries of a `FileMap` as parsed string pairs. -/
def entriesPV (es : List (List Char × List Char)) : List (PVal × PVal) :=
  es.map (fun e => (.str e.1, .str e.2))

/-! # Supporting lemmas -/

/-! ## Character and escape facts -/

theorem hexDigit_val : ∀ n, n < 16 → hexDigitVal (hexDigit n) = some n := by decide

theorem hexDigit_ge : ∀ n, n < 16 → 32 ≤ (hexDigit n).toNat := by decide

theorem hexDigit_plain : ∀ n, n < 16 → hexDigit n ≠ '"' ∧ hexDigit n ≠ '\\' ∧
    hexDigit n ≠ '\x7b' ∧ hexDigit n ≠ '\x7d' ∧ hexDigit n ≠ ',' ∧
    hexDigit n ≠ '\x5b' ∧ hexDigit n ≠ '\x5d' := by decide

theorem escChar_ctlFree (c : Char) : ∀ x ∈ escChar c, 32 ≤ x.toNat := by
  intro x hx
  unfold escChar at hx
  split at hx
  · cases hx with
    | head => decide
    | tail _ h => cases h with
      | head => decide
      | tail _ h => cases h
  · split at hx
    · cases hx with
      | head => decide
      | tail _ h => cases h with
        | head => decide
        | tail _ h => cases h
    · split at hx
      · cases hx with
        | head => decide
        | tail _ h => cases h with
          | head => decide
          | tail _ h => cases h
      · split at hx
        · cases hx with
          | head => decide
          | tail _ h => cases h with
            | head => decide
            | tail _ h => cases h
        · split at hx
          · cases hx with
            | head => decide
            | tail _ h => cases h with
              | head => decide
              | tail _ h => cases h
          · split at hx
            · cases hx with
              | head => decide
              | tail _ h => cases h with
                | head => decide
                | tail _ h => cases h
            · split at hx
              · cases hx with
                | head => decide
                | tail _ h => cases h with
                  | head => decide
                  | tail _ h => cases h
              · split at hx
                · rename_i hlt
                  have hlt32 : c.toNat < 32 := by simpa using hlt
                  cases hx with
                  | head => decide
                  | tail _ h => cases h with
                    | head => decide
                    | tail _ h => cases h with
                      | head => decide
                      | tail _ h => cases h with
                        | head => decide
                        | tail _ h => cases h with
                          | head => exact hexDigit_ge _ (by omega)
                          | tail _ h => cases h with
                            | head => exact hexDigit_ge _ (Nat.mod_lt _ (by omega))
                            | tail _ h => cases h
                · rename_i hge
                  have hge32 : ¬(c.toNat < 32) := by simpa using hge
                  cases hx with
                  | head => omega
                  | tail _ h => cases h

theorem escBody_ctlFree (s : List Char) : ∀ x ∈ escBody s, 32 ≤ x.toNat := by
  induction s with
  | nil => intro x hx; simp [escBody] at hx
  | cons c cs ih =>
    intro x hx
    simp only [escBody, List.mem_append] at hx
    rcases hx with h | h
    · exact escChar_ctlFree c x h
    · exact ih x h

/-! ## No-op lemmas for the preprocessing stages -/

theorem fixGo_noop {t : List Char} (ht : ∀ c ∈ t, 32 ≤ c.toNat) :
    ∀ inS esc, fixGo inS esc t = t := by
  induction t with
  | nil => intro inS esc; simp [fixGo]
  | cons c cs ih =>
    intro inS esc
    have hc : 32 ≤ c.toNat := ht c (List.mem_cons_self _ _)
    have hcs : ∀ x ∈ cs, 32 ≤ x.toNat := fun x hx => ht x (List.mem_cons_of_mem _ hx)
    have ihs := fun inS esc => ih hcs inS esc
    have hlt : ¬(c.toNat < 32) := by omega
    have hn : ¬(c = '\n') := by intro hx; subst hx; exact absurd hc (by decide)
    have hr : ¬(c = '\r') := by intro hx; subst hx; exact absurd hc (by decide)
    have htb : ¬(c = '\t') := by intro hx; subst hx; exact absurd hc (by decide)
    cases esc with
    | true => simp [fixGo, ihs]
    | false =>
      by_cases h1 : c = '\\'
      · simp [fixGo, h1, ihs]
      · by_cases h2 : c = '"'
        · simp [fixGo, h1, h2, ihs]
        · simp [fixGo, h1, h2, hn, hr, htb, hlt, ihs]

theorem fixCtl_noop {t : List Char} (ht : ∀ c ∈ t, 32 ≤ c.toNat) : fixCtl t = t :=
  fixGo_noop ht false false

theorem pyStrip_noop {t : List Char}
    (h1 : ∀ c, t.head? = some c → isPyWs c = false)
    (h2 : ∀ c, t.getLast? = some c → isPyWs c = false) : pyStrip t = t := by
  have hd : t.dropWhile isPyWs = t := by
    cases t with
    | nil => rfl
    | cons c rest =>
      have hc := h1 c rfl
      simp [List.dropWhile_cons, hc]
  have hrev : t.reverse.dropWhile isPyWs = t.reverse := by
    cases hrv : t.reverse with
    | nil => rfl
    | cons d dr =>
      have hdl : t.getLast? = some d := by
        rw [← List.head?_reverse, hrv]; rfl
      have hd2 := h2 d hdl
      simp [List.dropWhile_cons, hd2]
  unfold pyStrip
  rw [hd, hrev, List.reverse_reverse]

theorem isPrefixOf_backtick_json_false {t : List Char} (h : t.head? = some '\x7b') :
    (("```json").toList).isPrefixOf t = false := by
  cases t with
  | nil => simp at h
  | cons c rest =>
    have hc : c = '\x7b' := by simpa using h
    subst hc
    have hpat : (("```json").toList) = '\x60' :: (("``json").toList) := by decide
    have hne : (('\x60' == '\x7b') : Bool) = false := by decide
    rw [hpat]
    simp [List.isPrefixOf, hne]

theorem isPrefixOf_backtick_false {t : List Char} (h : t.head? = some '\x7b') :
    (("```").toList).isPrefixOf t = false := by
  cases t with
  | nil => simp at h
  | cons c rest =>
    have hc : c = '\x7b' := by simpa using h
    subst hc
    have hpat : (("```").toList) = '\x60' :: (("``").toList) := by decide
    have hne : (('\x60' == '\x7b') : Bool) = false := by decide
    rw [hpat]
    simp [List.isPrefixOf, hne]

theorem isSuffixOf_backtick_false {t : List Char} {c : Char} (h : t.getLast? = some c)
    (hc : ¬(c = '\x60')) : (("```").toList).isSuffixOf t = false := by
  unfold List.isSuffixOf
  cases hrev : t.reverse with
  | nil =>
    have ht : t = [] := by
      have := congrArg List.reverse hrev
      simpa using this
    subst ht; simp at h
  | cons d dr =>
    have hdl : t.getLast? = some d := by
      rw [← List.head?_reverse, hrev]; rfl
    have hdc : d = c := by
      rw [h] at hdl; simpa using hdl.symm
    subst hdc
    have hne : (('\x60' == d) : Bool) = false := by
      simp only [beq_eq_false_iff_ne, ne_eq]
      intro hx; exact hc hx.symm
    have hpat : ((("```").toList).reverse) = '\x60' :: (("``").toList) := by decide
    rw [hpat]
    simp [List.isPrefixOf, hne]

theorem stripFences_noop {t : List Char} (hstrip : pyStrip t = t)
    (hpre2 : (("```json").toList).isPrefixOf t = false)
    (hpre : (("```").toList).isPrefixOf t = false)
    (hsuf : (("```").toList).isSuffixOf t = false) : stripFences t = t := by
  unfold stripFences
  simp only [hstrip, hpre, hpre2, hsuf, Bool.false_eq_true, if_false]

theorem outerSlice_noop_brace {t : List Char} (hhead : t.head? = some '\x7b')
    (hlast : t.getLast? = some '\x7d') : outerSlice t = t := by
  cases t with
  | nil => simp at hhead
  | cons c rest =>
    have hc : c = '\x7b' := by simpa using hhead
    subst hc
    have hfind : findChar '\x7b' ('\x7b' :: rest) = some 0 := by
      simp [findChar, idxOf?]
    have hrfind : rfindChar '\x7d' ('\x7b' :: rest) = some (('\x7b' :: rest).length - 1) := by
      unfold rfindChar
      cases hrv : ('\x7b' :: rest).reverse with
      | nil => simp at hrv
      | cons d dr =>
        have hdl : ('\x7b' :: rest).getLast? = some d := by
          rw [← List.head?_reverse, hrv]; rfl
        have hd : d = '\x7d' := by
          rw [hlast] at hdl; simpa using hdl.symm
        subst hd
        simp [idxOf?]
    unfold outerSlice
    rw [hfind, hrfind]
    show (if 0 < (('\x7b' :: rest).length - 1) + 1 then
        List.take ((('\x7b' :: rest).length - 1) + 1 - 0) (List.drop 0 ('\x7b' :: rest))
      else '\x7b' :: rest) = '\x7b' :: rest
    rw [if_pos (by omega)]
    have hlen : 0 < ('\x7b' :: rest).length := by simp
    have heq : ('\x7b' :: rest).length - 1 + 1 - 0 = ('\x7b' :: rest).length := by omega
    rw [heq, List.drop_zero, List.take_length]

theorem idxOf?_eq_none {c : Char} {t : List Char} (h : hasChar c t = false) :
    idxOf? c t = none := by
  induction t with
  | nil => rfl
  | cons x xs ih =>
    simp only [hasChar, List.any_cons, Bool.or_eq_false_iff] at h
    have hx : ¬(x = c) := by simpa using h.1
    have hxs : hasChar c xs = false := by simpa [hasChar] using h.2
    simp [idxOf?, hx, ih hxs]

theorem outerSlice_noop_noBrace {t : List Char} (hnb : hasChar '\x7d' t = false) :
    outerSlice t = t := by
  have hnone : idxOf? '\x7d' t.reverse = none := by
    apply idxOf?_eq_none
    simp only [hasChar] at hnb ⊢
    rw [List.any_eq_false] at hnb ⊢
    intro x hx
    exact hnb x (List.mem_reverse.mp hx)
  unfold outerSlice rfindChar
  rw [hnone]
  cases findChar '\x7b' t <;> rfl

/-! ## No-op lemmas for the defect-repair rewrites -/

theorem rtcLook_none {cs : List Char}
    (h1 : hasChar '\x7d' cs = false) (h2 : hasChar '\x5d' cs = false) :
    rtcLook cs = none := by
  induction cs with
  | nil => rfl
  | cons c cs ih =>
    simp only [hasChar, List.any_cons, Bool.or_eq_false_iff] at h1 h2
    have hc1 : ¬(c = '\x7d') := by simpa using h1.1
    have hc2 : ¬(c = '\x5d') := by simpa using h2.1
    have ihr := ih (by simpa [hasChar] using h1.2) (by simpa [hasChar] using h2.2)
    simp only [rtcLook]
    rw [if_neg (by simp [hc1, hc2])]
    split
    · rw [ihr]
    · rfl

theorem rtc_noop {t : List Char}
    (h1 : hasChar '\x7d' t = false) (h2 : hasChar '\x5d' t = false) : rtc t = t := by
  suffices hgen : ∀ f (s : List Char), hasChar '\x7d' s = false → hasChar '\x5d' s = false →
      rtcF f s = s from hgen t.length t h1 h2
  intro f
  induction f with
  | zero => intro s _ _; rfl
  | succ f ih =>
    intro s hs1 hs2
    cases s with
    | nil => rfl
    | cons c cs =>
      simp only [hasChar, List.any_cons, Bool.or_eq_false_iff] at hs1 hs2
      have hcs1 : hasChar '\x7d' cs = false := by simpa [hasChar] using hs1.2
      have hcs2 : hasChar '\x5d' cs = false := by simpa [hasChar] using hs2.2
      simp only [rtcF]
      split
      · rw [rtcLook_none hcs1 hcs2]
        rw [ih cs hcs1 hcs2]
        rename_i hc; rw [hc]
      · rw [ih cs hcs1 hcs2]

theorem hasAdj_tail {a b x : Char} {xs : List Char} (h : hasAdj a b (x :: xs) = false) :
    hasAdj a b xs = false := by
  cases xs with
  | nil => rfl
  | cons y ys =>
    simp only [hasAdj, Bool.or_eq_false_iff] at h
    exact h.2

theorem slc_noop {t : List Char} (h : hasAdj '/' '/' t = false) : slc t = t := by
  suffices hgen : ∀ f (s : List Char), hasAdj '/' '/' s = false → slcF f s = s from
    hgen t.length t h
  intro f
  induction f with
  | zero => intro s _; rfl
  | succ f ih =>
    intro s hs
    match s with
    | [] => rfl
    | [c] => rfl
    | c1 :: c2 :: cs =>
      simp only [hasAdj, Bool.or_eq_false_iff] at hs
      have hne : ¬(c1 = '/' ∧ c2 = '/') := by
        intro ⟨ha, hb⟩
        subst ha; subst hb
        simp at hs
      simp only [slcF]
      rw [if_neg (by simp only [Bool.and_eq_true, decide_eq_true_eq]; exact hne)]
      rw [ih (c2 :: cs) hs.2]

theorem sbc_noop {t : List Char} (h : hasAdj '/' '*' t = false) : sbc t = t := by
  suffices hgen : ∀ f (s : List Char), hasAdj '/' '*' s = false → sbcF f s = s from
    hgen t.length t h
  intro f
  induction f with
  | zero => intro s _; rfl
  | succ f ih =>
    intro s hs
    match s with
    | [] => rfl
    | [c] => rfl
    | c1 :: c2 :: cs =>
      simp only [hasAdj, Bool.or_eq_false_iff] at hs
      have hne : ¬(c1 = '/' ∧ c2 = '*') := by
        intro ⟨ha, hb⟩
        subst ha; subst hb
        simp at hs
      simp only [sbcF]
      rw [if_neg (by simp only [Bool.and_eq_true, decide_eq_true_eq]; exact hne)]
      rw [ih (c2 :: cs) hs.2]

theorem mcLook_none {closer : Char} {cs : List Char} (h : hasChar closer cs = false) :
    mcLook closer cs = none := by
  induction cs with
  | nil => rfl
  | cons c cs ih =>
    simp only [hasChar, List.any_cons, Bool.or_eq_false_iff] at h
    have hc : ¬(c = closer) := by simpa using h.1
    have ihr := ih (by simpa [hasChar] using h.2)
    simp only [mcLook]
    rw [if_neg hc]
    split
    · exact ihr
    · rfl

theorem fmc_noop {closer : Char} {t : List Char} (h : hasChar closer t = false) :
    fmc closer t = t := by
  suffices hgen : ∀ f (s : List Char), hasChar closer s = false → fmcF closer f s = s from
    hgen t.length t h
  intro f
  induction f with
  | zero => intro s _; rfl
  | succ f ih =>
    intro s hs
    cases s with
    | nil => rfl
    | cons c cs =>
      simp only [hasChar, List.any_cons, Bool.or_eq_false_iff] at hs
      have hcs : hasChar closer cs = false := by simpa [hasChar] using hs.2
      simp only [fmcF]
      split
      · rw [mcLook_none hcs, ih cs hcs]
        rename_i hc; rw [hc]
      · rw [ih cs hcs]

/-! ## `find_json_object` returns nothing without a closing brace -/

theorem fjoGo_none : ∀ (cs : List Char) inS esc n acc, hasChar '\x7d' cs = false →
    fjoGo inS esc n acc cs = none := by
  intro cs
  induction cs with
  | nil => intro inS esc n acc _; cases inS <;> cases esc <;> rfl
  | cons c cs ih =>
    intro inS esc n acc h
    simp only [hasChar, List.any_cons, Bool.or_eq_false_iff] at h
    have hc : ¬(c = '\x7d') := by simpa using h.1
    have hcs : hasChar '\x7d' cs = false := by simpa [hasChar] using h.2
    cases esc with
    | true => simp only [fjoGo]; exact ih _ _ _ _ hcs
    | false =>
      simp only [fjoGo]
      by_cases h1 : c = '\\'
      · rw [if_pos h1]; exact ih _ _ _ _ hcs
      · rw [if_neg h1]
        by_cases h2 : c = '"'
        · rw [if_pos h2]; exact ih _ _ _ _ hcs
        · rw [if_neg h2]
          by_cases h3 : (!inS && c = '\x7b') = true
          · rw [if_pos h3]; exact ih _ _ _ _ hcs
          · rw [if_neg h3]
            rw [if_neg (by simp [hc])]
            exact ih _ _ _ _ hcs

theorem hasChar_dropWhile {c : Char} {p : Char → Bool} {t : List Char}
    (h : hasChar c t = false) : hasChar c (t.dropWhile p) = false := by
  induction t with
  | nil => rfl
  | cons x xs ih =>
    simp only [hasChar, List.any_cons, Bool.or_eq_false_iff] at h
    have hxs : hasChar c xs = false := by simpa [hasChar] using h.2
    rw [List.dropWhile_cons]
    split
    · exact ih hxs
    · simp only [hasChar, List.any_cons, Bool.or_eq_false_iff]
      refine ⟨h.1, by simpa [hasChar] using hxs⟩

theorem fjo_none {t : List Char} (h : hasChar '\x7d' t = false) : fjo t = none := by
  unfold fjo
  have hd : hasChar '\x7d' (t.dropWhile (· ≠ '\x7b')) = false := hasChar_dropWhile h
  cases hdw : t.dropWhile (· ≠ '\x7b') with
  | nil => rfl
  | cons c cs =>
    rw [hdw] at hd
    simp only [hasChar, List.any_cons, Bool.or_eq_false_iff] at hd
    exact fjoGo_none cs false false 1 [c] (by simpa [hasChar] using hd.2)

/-! ## Parser lemmas -/

theorem skipWs_nil : skipWs [] = [] := rfl

theorem skipWs_cons_nonws {c : Char} {t : List Char} (h : isJWs c = false) :
    skipWs (c :: t) = c :: t := by
  simp [skipWs, List.dropWhile_cons, h]

theorem skipWs_cons_ws {c : Char} {t : List Char} (h : isJWs c = true) :
    skipWs (c :: t) = skipWs t := by
  simp [skipWs, List.dropWhile_cons, h]

theorem skipWs_append_ws {ws t : List Char} (h : ∀ c ∈ ws, isJWs c = true) :
    skipWs (ws ++ t) = skipWs t := by
  induction ws with
  | nil => rfl
  | cons c cs ih =>
    rw [List.cons_append, skipWs_cons_ws (h c (List.mem_cons_self _ _))]
    exact ih (fun x hx => h x (List.mem_cons_of_mem _ hx))

theorem parseVal_ws {f : Nat} {c : Char} {cs : List Char} (h : isJWs c = true) :
    parseVal (f + 1) (c :: cs) = parseVal (f + 1) cs := by
  simp only [parseVal]
  rw [skipWs_cons_ws h]

theorem parseObj_ws {f : Nat} {first : Bool} {acc : List (PVal × PVal)} {c : Char}
    {cs : List Char} (h : isJWs c = true) :
    parseObj (f + 1) first acc (c :: cs) = parseObj (f + 1) first acc cs := by
  simp only [parseObj]
  rw [skipWs_cons_ws h]

theorem psb_quote (f : Nat) (rest : List Char) :
    parseStringBody (f + 1) ('"' :: rest) = some ([], rest) := by
  rw [parseStringBody.eq_def]
  simp

theorem psb_esc_quote (f : Nat) (T : List Char) : parseStringBody (f + 1) ('\\' :: '"' :: T) =
    (parseStringBody f T).map (fun p => ('"' :: p.1, p.2)) := by
  rw [parseStringBody.eq_def]
  simp [unescapeC]

theorem psb_esc_back (f : Nat) (T : List Char) : parseStringBody (f + 1) ('\\' :: '\\' :: T) =
    (parseStringBody f T).map (fun p => ('\\' :: p.1, p.2)) := by
  rw [parseStringBody.eq_def]
  simp [unescapeC]

theorem psb_esc_n (f : Nat) (T : List Char) : parseStringBody (f + 1) ('\\' :: 'n' :: T) =
    (parseStringBody f T).map (fun p => ('\n' :: p.1, p.2)) := by
  rw [parseStringBody.eq_def]
  simp [unescapeC]

theorem psb_esc_r (f : Nat) (T : List Char) : parseStringBody (f + 1) ('\\' :: 'r' :: T) =
    (parseStringBody f T).map (fun p => ('\r' :: p.1, p.2)) := by
  rw [parseStringBody.eq_def]
  simp [unescapeC]

theorem psb_esc_t (f : Nat) (T : List Char) : parseStringBody (f + 1) ('\\' :: 't' :: T) =
    (parseStringBody f T).map (fun p => ('\t' :: p.1, p.2)) := by
  rw [parseStringBody.eq_def]
  simp [unescapeC]

theorem psb_esc_b (f : Nat) (T : List Char) : parseStringBody (f + 1) ('\\' :: 'b' :: T) =
    (parseStringBody f T).map (fun p => ('\x08' :: p.1, p.2)) := by
  rw [parseStringBody.eq_def]
  simp [unescapeC]

theorem psb_esc_f (f : Nat) (T : List Char) : parseStringBody (f + 1) ('\\' :: 'f' :: T) =
    (parseStringBody f T).map (fun p => ('\x0c' :: p.1, p.2)) := by
  rw [parseStringBody.eq_def]
  simp [unescapeC]

theorem psb_plain {c : Char} (hq : ¬(c = '"')) (hb : ¬(c = '\\')) (hc : ¬(c.toNat < 32))
    (f : Nat) (rest : List Char) :
    parseStringBody (f + 1) (c :: rest) =
      (parseStringBody f rest).map (fun p => (c :: p.1, p.2)) := by
  rw [parseStringBody.eq_def]
  simp [hq, hb, hc]

theorem psb_u00 {h3 h4 : Char} {a b : Nat} (f : Nat) (rest : List Char)
    (e3 : hexDigitVal h3 = some a) (e4 : hexDigitVal h4 = some b)
    (hlow : ((0 * 16 + 0) * 16 + a) * 16 + b < 0xD800) :
    parseStringBody (f + 1) ('\\' :: 'u' :: '0' :: '0' :: h3 :: h4 :: rest) =
      (parseStringBody f rest).map
        (fun p => (Char.ofNat (((0 * 16 + 0) * 16 + a) * 16 + b) :: p.1, p.2)) := by
  have h0 : hexDigitVal '0' = some 0 := by decide
  have hu : parseUEscape ('0' :: '0' :: h3 :: h4 :: rest) =
      some (Char.ofNat (((0 * 16 + 0) * 16 + a) * 16 + b), rest) := by
    rw [parseUEscape.eq_def]
    simp only [hex4, h0, e3, e4]
    rw [if_pos (Or.inl hlow)]
  rw [parseStringBody.eq_def]
  simp [hu]

/-- An escaped string body is at least as long as its source. -/
theorem escBody_length_ge : ∀ s : List Char, s.length ≤ (escBody s).length := by
  intro s
  induction s with
  | nil => simp [escBody]
  | cons c cs ih =>
    have hne : escChar c ≠ [] := by
      unfold escChar
      split
      · simp
      · split
        · simp
        · split
          · simp
          · split
            · simp
            · split
              · simp
              · split
                · simp
                · split
                  · simp
                  · split
                    · simp
                    · simp
    have hlen : 1 ≤ (escChar c).length := by
      cases hc : escChar c with
      | nil => exact absurd hc hne
      | cons x xs => simp
    simp only [escBody, List.length_cons, List.length_append]
    omega

/-- The serializer-parser round trip on string bodies: parsing the escaped
body of `s` followed by a closing quote recovers exactly `s`. -/
theorem parseStringBody_escBody : ∀ (s : List Char) (f : Nat) (rest : List Char),
    s.length < f → parseStringBody f (escBody s ++ '"' :: rest) = some (s, rest) := by
  intro s
  induction s with
  | nil =>
    intro f rest hf
    obtain ⟨g, rfl⟩ : ∃ g, f = g + 1 := ⟨f - 1, by omega⟩
    show parseStringBody (g + 1) ('"' :: rest) = some ([], rest)
    exact psb_quote g rest
  | cons c cs ih =>
    intro f rest hf
    obtain ⟨g, rfl⟩ : ∃ g, f = g + 1 := ⟨f - 1, by omega⟩
    have hg : cs.length < g := by
      have := hf
      simp only [List.length_cons] at this
      omega
    show parseStringBody (g + 1) ((escChar c ++ escBody cs) ++ '"' :: rest) = _
    rw [List.append_assoc]
    unfold escChar
    split
    · rename_i hc
      subst hc
      simp only [List.cons_append, List.nil_append]
      rw [psb_esc_quote, ih g rest hg]
      rfl
    · split
      · rename_i hc
        subst hc
        simp only [List.cons_append, List.nil_append]
        rw [psb_esc_back, ih g rest hg]
        rfl
      · split
        · rename_i hc
          subst hc
          simp only [List.cons_append, List.nil_append]
          rw [psb_esc_n, ih g rest hg]
          rfl
        · split
          · rename_i hc
            subst hc
            simp only [List.cons_append, List.nil_append]
            rw [psb_esc_r, ih g rest hg]
            rfl
          · split
            · rename_i hc
              subst hc
              simp only [List.cons_append, List.nil_append]
              rw [psb_esc_t, ih g rest hg]
              rfl
            · split
              · rename_i hc
                subst hc
                simp only [List.cons_append, List.nil_append]
                rw [psb_esc_b, ih g rest hg]
                rfl
              · split
                · rename_i hc
                  subst hc
                  simp only [List.cons_append, List.nil_append]
                  rw [psb_esc_f, ih g rest hg]
                  rfl
                · split
                  · rename_i hlt
                    have hlt32 : c.toNat < 32 := by simpa using hlt
                    have hdiv : c.toNat / 16 < 16 := by omega
                    have hmod : c.toNat % 16 < 16 := Nat.mod_lt _ (by omega)
                    simp only [List.cons_append, List.nil_append]
                    rw [psb_u00 g _ (hexDigit_val _ hdiv) (hexDigit_val _ hmod) (by omega)]
                    rw [ih g rest hg]
                    have hn : ((0 * 16 + 0) * 16 + c.toNat / 16) * 16 + c.toNat % 16 =
                        c.toNat := by omega
                    simp only [Option.map_some', hn, Char.ofNat_toNat]
                  · rename_i hge
                    have hq : ¬(c = '"') := by assumption
                    have hb : ¬(c = '\\') := by assumption
                    have hge32 : ¬(c.toNat < 32) := by simpa using hge
                    simp only [List.singleton_append]
                    rw [psb_plain hq hb hge32, ih g rest hg]
                    rfl

/-- The round trip at the fuel the parser actually supplies. -/
theorem parseStringBody_escBody' (s rest : List Char) :
    parseStringBody ((escBody s ++ '"' :: rest).length + 1) (escBody s ++ '"' :: rest) =
      some (s, rest) := by
  apply parseStringBody_escBody
  have h1 := escBody_length_ge s
  have h2 : (escBody s ++ '"' :: rest).length = (escBody s).length + rest.length + 1 := by
    simp; omega
  omega


theorem parseVal_quote (f : Nat) (R : List Char) :
    parseVal (f + 1) ('"' :: R) =
      (parseStringBody (R.length + 1) R).map (fun p => (.str p.1, p.2)) := by
  simp only [parseVal]
  rw [skipWs_cons_nonws (by decide)]
  rfl

theorem parseVal_openBrace (f : Nat) (R : List Char) :
    parseVal (f + 1) ('\x7b' :: R) = parseObj f true [] R := by
  simp only [parseVal]
  rw [skipWs_cons_nonws (by decide)]
  rfl

theorem parseObj_quote (f : Nat) (first : Bool) (acc : List (PVal × PVal)) (R : List Char) :
    parseObj (f + 1) first acc ('"' :: R) =
      match parseStringBody (R.length + 1) R with
      | none => none
      | some (k, r1) =>
        match skipWs r1 with
        | ':' :: r2 =>
          match parseVal f r2 with
          | none => none
          | some (v, r3) =>
            match skipWs r3 with
            | ',' :: r4 => parseObj f false (dinsert acc (.str k) v) r4
            | '\x7d' :: r4 => some (.dict (dinsert acc (.str k) v), r4)
            | _ => none
        | _ => none := by
  simp only [parseObj]
  rw [skipWs_cons_nonws (by decide)]
  rfl

theorem renderEntry_shape (k v X : List Char) :
    renderEntry k v ++ X =
      '"' :: (escBody k ++ '"' :: ':' :: ' ' :: '"' :: (escBody v ++ '"' :: X)) := by
  simp [renderEntry]

/-- Parsing the members of a rendered files object: the serialized entries
followed by whitespace and a closing brace parse to the accumulated dict. -/
theorem parseObj_renderEntries :
    ∀ (es : List (List Char × List Char)) (f : Nat) (first : Bool) (acc : List (PVal × PVal))
      (ws rest : List Char),
      es ≠ [] → (∀ c ∈ ws, isJWs c = true) → es.length < f →
      parseObj f first acc (renderEntries es ++ (ws ++ '\x7d' :: rest)) =
        some (.dict (insEntries acc es), rest) := by
  intro es
  induction es with
  | nil => intro f first acc ws rest hne _ _; exact absurd rfl hne
  | cons e es2 ih =>
    intro f first acc ws rest _ hws hf
    obtain ⟨k, v⟩ := e
    have hf2 : 2 ≤ f := by
      simp only [List.length_cons] at hf
      omega
    obtain ⟨g2, rfl⟩ : ∃ g2, f = g2 + 1 + 1 := ⟨f - 2, by omega⟩
    cases es2 with
    | nil =>
      show parseObj (g2 + 1 + 1) first acc (renderEntry k v ++ (ws ++ '\x7d' :: rest)) = _
      rw [renderEntry_shape, parseObj_quote, parseStringBody_escBody']
      simp only []
      rw [skipWs_cons_nonws (by decide)]
      simp only []
      rw [parseVal_ws (by decide), parseVal_quote, parseStringBody_escBody']
      simp only [Option.map_some']
      rw [skipWs_append_ws hws, skipWs_cons_nonws (by decide)]
      rfl
    | cons e2 es2' =>
      show parseObj (g2 + 1 + 1) first acc
          (renderEntries ((k, v) :: e2 :: es2') ++ (ws ++ '\x7d' :: rest)) = _
      have hshape : renderEntries ((k, v) :: e2 :: es2') ++ (ws ++ '\x7d' :: rest) =
          renderEntry k v ++ (',' :: ' ' :: (renderEntries (e2 :: es2') ++ (ws ++ '\x7d' :: rest))) := by
        show (renderEntry k v ++ ',' :: ' ' :: renderEntries (e2 :: es2')) ++
            (ws ++ '\x7d' :: rest) = _
        simp [List.append_assoc]
      rw [hshape, renderEntry_shape, parseObj_quote, parseStringBody_escBody']
      simp only []
      rw [skipWs_cons_nonws (by decide)]
      simp only []
      rw [parseVal_ws (by decide), parseVal_quote, parseStringBody_escBody']
      simp only [Option.map_some']
      rw [skipWs_cons_nonws (by decide)]
      simp only []
      rw [parseObj_ws (by decide)]
      rw [ih (g2 + 1) false (dinsert acc (.str k) (.str v)) ws rest (by simp) hws
        (by simp only [List.length_cons] at hf ⊢; omega)]
      rfl

/-- Parsing the members of a truncated files object (serialized entries
followed by the dangling comma) fails, whatever the fuel. -/
theorem parseObj_renderEntries_trunc :
    ∀ (es : List (List Char × List Char)) (f : Nat) (first : Bool) (acc : List (PVal × PVal)),
      es ≠ [] → parseObj f first acc (renderEntries es ++ [',']) = none := by
  intro es
  induction es with
  | nil => intro f first acc hne; exact absurd rfl hne
  | cons e es2 ih =>
    intro f first acc _
    obtain ⟨k, v⟩ := e
    cases f with
    | zero => rfl
    | succ g =>
      cases es2 with
      | nil =>
        show parseObj (g + 1) first acc (renderEntry k v ++ [',']) = none
        rw [renderEntry_shape, parseObj_quote, parseStringBody_escBody']
        simp only []
        rw [skipWs_cons_nonws (by decide)]
        simp only []
        cases g with
        | zero => rfl
        | succ g2 =>
          rw [parseVal_ws (by decide), parseVal_quote, parseStringBody_escBody']
          simp only [Option.map_some']
          rw [skipWs_cons_nonws (by decide)]
          simp only []
          rfl
      | cons e2 es2' =>
        show parseObj (g + 1) first acc
            (renderEntries ((k, v) :: e2 :: es2') ++ [',']) = none
        have hshape : renderEntries ((k, v) :: e2 :: es2') ++ [','] =
            renderEntry k v ++ (',' :: ' ' :: (renderEntries (e2 :: es2') ++ [','])) := by
          show (renderEntry k v ++ ',' :: ' ' :: renderEntries (e2 :: es2')) ++ [','] = _
          simp [List.append_assoc]
        rw [hshape, renderEntry_shape, parseObj_quote, parseStringBody_escBody']
        simp only []
        rw [skipWs_cons_nonws (by decide)]
        simp only []
        cases g with
        | zero => rfl
        | succ g2 =>
          rw [parseVal_ws (by decide), parseVal_quote, parseStringBody_escBody']
          simp only [Option.map_some']
          rw [skipWs_cons_nonws (by decide)]
          simp only []
          rw [parseObj_ws (by decide)]
          rw [ih (g2 + 1) false (dinsert acc (.str k) (.str v)) (by simp)]

theorem filesHeader_shape (X : List Char) :
    filesHeader ++ X =
      '\x7b' :: '"' :: (escBody (("files").toList) ++ '"' :: ':' :: ' ' :: '\x7b' :: X) := by
  have hesc : escBody (("files").toList) = ("files").toList := by decide
  rw [hesc]
  rfl

/-- Parsing an entire serialized files document (with whitespace allowed
before each closing brace). -/
theorem parseVal_filesDoc (es : List (List Char × List Char)) (ws1 ws2 : List Char)
    (hne : es ≠ []) (hws1 : ∀ c ∈ ws1, isJWs c = true) (hws2 : ∀ c ∈ ws2, isJWs c = true)
    (f : Nat) (hf : es.length + 4 ≤ f) :
    parseVal f (filesHeader ++ (renderEntries es ++ (ws1 ++ '\x7d' :: (ws2 ++ ['\x7d'])))) =
      some (.dict [(.str (("files").toList), .dict (insEntries [] es))], []) := by
  obtain ⟨g, rfl⟩ : ∃ g, f = g + 1 + 1 + 1 := ⟨f - 3, by omega⟩
  rw [filesHeader_shape, parseVal_openBrace, parseObj_quote, parseStringBody_escBody']
  simp only []
  rw [skipWs_cons_nonws (by decide)]
  simp only []
  rw [parseVal_ws (by decide), parseVal_openBrace]
  rw [parseObj_renderEntries es g true [] ws1 (ws2 ++ ['\x7d']) hne hws1 (by omega)]
  simp only []
  rw [skipWs_append_ws hws2, skipWs_cons_nonws (by decide)]
  rfl

/-- Rendered entries are at least as many characters as entries. -/
theorem renderEntries_length_ge : ∀ es : List (List Char × List Char),
    es.length ≤ (renderEntries es).length := by
  intro es
  induction es with
  | nil => simp [renderEntries]
  | cons e es2 ih =>
    cases es2 with
    | nil => simp [renderEntries, renderEntry]
    | cons e2 es2' =>
      show (e :: e2 :: es2').length ≤ (renderEntry e.1 e.2 ++ ',' :: ' ' ::
        renderEntries (e2 :: es2')).length
      simp only [List.length_cons, List.length_append, renderEntry] at ih ⊢
      omega

/-- `json.loads` on a serialized files document. -/
theorem jsonLoads_filesDoc (es : List (List Char × List Char)) (ws1 ws2 : List Char)
    (hne : es ≠ []) (hws1 : ∀ c ∈ ws1, isJWs c = true) (hws2 : ∀ c ∈ ws2, isJWs c = true) :
    jsonLoads (filesHeader ++ (renderEntries es ++ (ws1 ++ '\x7d' :: (ws2 ++ ['\x7d'])))) =
      some (.dict [(.str (("files").toList), .dict (insEntries [] es))]) := by
  unfold jsonLoads
  rw [parseVal_filesDoc es ws1 ws2 hne hws1 hws2 _ ?hb]
  case hb =>
    have h1 := renderEntries_length_ge es
    have h2 : filesHeader.length = 11 := by decide
    simp only [List.length_append, List.length_cons, h2]
    omega
  rfl

/-- `json.loads` fails on a truncated files document, whatever the fuel. -/
theorem parseVal_truncDoc (es : List (List Char × List Char)) (hne : es ≠ []) :
    ∀ f, parseVal f (filesHeader ++ (renderEntries es ++ [','])) = none := by
  intro f
  cases f with
  | zero => rfl
  | succ g =>
    cases g with
    | zero =>
      rw [filesHeader_shape]
      rw [parseVal_openBrace]
      rfl
    | succ g1 =>
      rw [filesHeader_shape, parseVal_openBrace, parseObj_quote, parseStringBody_escBody']
      simp only []
      rw [skipWs_cons_nonws (by decide)]
      simp only []
      cases g1 with
      | zero => rfl
      | succ g2 =>
        rw [parseVal_ws (by decide), parseVal_openBrace]
        rw [parseObj_renderEntries_trunc es g2 true [] hne]

theorem jsonLoads_truncDoc (es : List (List Char × List Char)) (hne : es ≠ []) :
    jsonLoads (truncDoc es) = none := by
  unfold jsonLoads truncDoc
  rw [List.append_assoc]
  rw [parseVal_truncDoc es hne]

/-- In-string consumption step of the truncation scanner for a plain
character. -/
theorem stGo_inStr_step (x : Char) (hx1 : x ≠ '\\') (hx2 : x ≠ '"') :
    ∀ (d : Nat) (last : Option (List Char)) (acc rest : List Char),
    stGo true false d last acc (x :: rest) = stGo true false d last (x :: acc) rest := by
  intro d last acc rest
  rw [stGo.eq_def]
  simp only []
  rw [if_neg hx1, if_neg hx2]
  simp

/-- The truncation scanner consumes one escaped character inside a string
without changing its bookkeeping. -/
theorem stGo_escChar (c : Char) :
    ∀ (d : Nat) (last : Option (List Char)) (acc rest : List Char),
    stGo true false d last acc (escChar c ++ rest) =
      stGo true false d last ((escChar c).reverse ++ acc) rest := by
  intro d last acc rest
  unfold escChar
  split
  · rfl
  · split
    · rfl
    · split
      · rfl
      · split
        · rfl
        · split
          · rfl
          · split
            · rfl
            · split
              · rfl
              · split
                · rename_i hlt
                  have hlt32 : c.toNat < 32 := by simpa using hlt
                  have h1 := hexDigit_plain (c.toNat / 16) (by omega)
                  have h2 := hexDigit_plain (c.toNat % 16) (Nat.mod_lt _ (by omega))
                  show stGo true false d last ('0' :: '0' :: 'u' :: '\\' :: acc)
                      (hexDigit (c.toNat / 16) :: hexDigit (c.toNat % 16) :: rest) = _
                  rw [stGo_inStr_step _ h1.2.1 h1.1]
                  exact stGo_inStr_step _ h2.2.1 h2.1 _ _ _ _
                · rename_i h1 h2 h3 h4 h5 h6 h7 h8
                  exact stGo_inStr_step c h2 h1 _ _ _ _

/-- The truncation scanner consumes an escaped string body without changing
its bookkeeping. -/
theorem stGo_escBody (s : List Char) :
    ∀ (d : Nat) (last : Option (List Char)) (acc rest : List Char),
    stGo true false d last acc (escBody s ++ rest) =
      stGo true false d last ((escBody s).reverse ++ acc) rest := by
  induction s with
  | nil => intro d last acc rest; rfl
  | cons c cs ih =>
    intro d last acc rest
    show stGo true false d last acc ((escChar c ++ escBody cs) ++ rest) = _
    rw [List.append_assoc, stGo_escChar, ih]
    have hacc : (escBody cs).reverse ++ ((escChar c).reverse ++ acc) =
        (escBody (c :: cs)).reverse ++ acc := by
      simp [escBody, List.reverse_append, List.append_assoc]
    rw [hacc]

theorem stGo_openQ : ∀ (d : Nat) last (acc cs : List Char),
    stGo false false d last acc ('"' :: cs) = stGo true false d last ('"' :: acc) cs := by
  intro d last acc cs; rfl

theorem stGo_closeQ : ∀ (d : Nat) last (acc cs : List Char),
    stGo true false d last acc ('"' :: cs) = stGo false false d last ('"' :: acc) cs := by
  intro d last acc cs; rfl

theorem stGo_colon : ∀ (d : Nat) last (acc cs : List Char),
    stGo false false d last acc (':' :: cs) = stGo false false d last (':' :: acc) cs := by
  intro d last acc cs; rfl

theorem stGo_space : ∀ (d : Nat) last (acc cs : List Char),
    stGo false false d last acc (' ' :: cs) = stGo false false d last (' ' :: acc) cs := by
  intro d last acc cs; rfl

/-- A depth-1 comma outside strings updates the last-safe-prefix register. -/
theorem stGo_comma : ∀ last (acc cs : List Char),
    stGo false false 1 last acc (',' :: cs) =
      stGo false false 1 (some acc.reverse) (',' :: acc) cs := by
  intro last acc cs; rfl

/-- The truncation scanner consumes one rendered file entry without changing
its bookkeeping. -/
theorem stGo_renderEntry (k v : List Char) :
    ∀ last (acc rest : List Char),
    stGo false false 1 last acc (renderEntry k v ++ rest) =
      stGo false false 1 last ((renderEntry k v).reverse ++ acc) rest := by
  intro last acc rest
  have hsh : renderEntry k v ++ rest =
      '"' :: (escBody k ++ ('"' :: ':' :: ' ' :: '"' :: (escBody v ++ ('"' :: rest)))) := by
    simp [renderEntry, List.append_assoc]
  rw [hsh, stGo_openQ, stGo_escBody, stGo_closeQ, stGo_colon, stGo_space, stGo_openQ,
    stGo_escBody, stGo_closeQ]
  have hacc : ('"' :: ((escBody v).reverse ++
      ('"' :: ' ' :: ':' :: '"' :: ((escBody k).reverse ++ ('"' :: acc))))) =
      (renderEntry k v).reverse ++ acc := by
    simp [renderEntry, List.reverse_append, List.append_assoc]
  rw [hacc]

/-- Scanning rendered entries that end at a truncating comma: the scan always
reaches the end of input with the full rendered prefix recorded as the last
safe point, and appends the closing sequence. -/
theorem stGo_renderEntries_trunc :
    ∀ (es : List (List Char × List Char)) last (acc : List Char),
    stGo false false 1 last acc (renderEntries es ++ [',']) =
      some ((acc.reverse ++ renderEntries es) ++
        ('\n' :: ' ' :: ' ' :: '\x7d' :: '\n' :: '\x7d' :: [])) := by
  intro es
  induction es with
  | nil =>
    intro last acc
    show stGo false false 1 last acc [','] = _
    rw [stGo_comma]
    have h0 : stGo false false 1 (some acc.reverse) (',' :: acc) ([] : List Char) =
        some (acc.reverse ++ ('\n' :: ' ' :: ' ' :: '\x7d' :: '\n' :: '\x7d' :: [])) := rfl
    rw [h0]
    simp [renderEntries]
  | cons e es2 ih =>
    intro last acc
    cases es2 with
    | nil =>
      show stGo false false 1 last acc (renderEntry e.1 e.2 ++ [',']) = _
      rw [stGo_renderEntry]
      refine (ih last ((renderEntry e.1 e.2).reverse ++ acc)).trans ?_
      simp [renderEntries, List.reverse_append, List.append_assoc]
    | cons e2 es2' =>
      have hsh : renderEntries (e :: e2 :: es2') ++ [','] =
          renderEntry e.1 e.2 ++ (',' :: ' ' :: (renderEntries (e2 :: es2') ++ [','])) := by
        show (renderEntry e.1 e.2 ++ ',' :: ' ' :: renderEntries (e2 :: es2')) ++ [','] = _
        simp [List.append_assoc]
      rw [hsh, stGo_renderEntry, stGo_comma, stGo_space]
      refine (ih _ _).trans ?_
      simp [renderEntries, List.reverse_append, List.append_assoc]

/-- The literal `"files"` first occurs at index 1 of a document that starts
with the files header. -/
theorem findSubIdx_filesHeader (X : List Char) :
    findSubIdx (("\"files\"").toList) (filesHeader ++ X) = some 1 := by
  have hsh : filesHeader ++ X =
      '\x7b' :: '"' :: 'f' :: 'i' :: 'l' :: 'e' :: 's' :: '"' :: ':' :: ' ' :: '\x7b' :: X := rfl
  have hp : (("\"files\"").toList) = '"' :: 'f' :: 'i' :: 'l' :: 'e' :: 's' :: '"' :: [] := rfl
  rw [hsh, hp]
  rw [findSubIdx.eq_def]
  simp [List.isPrefixOf]
  rw [findSubIdx.eq_def]
  simp [List.isPrefixOf]

/-- The first `\x7b` at or after index 1 of a document that starts with the
files header is the header's inner opening brace, at index 10. -/
theorem findCharFrom_header (X : List Char) :
    findCharFrom '\x7b' (filesHeader ++ X) 1 = some 10 := by
  unfold findCharFrom
  have hd : (filesHeader ++ X).drop 1 =
      '"' :: 'f' :: 'i' :: 'l' :: 'e' :: 's' :: '"' :: ':' :: ' ' :: '\x7b' :: X := rfl
  rw [hd]
  simp [idxOf?]

/-- `smart_truncate_json` on a document truncated right after an entry's
comma: the text is cut at that comma and the closing sequence appended,
leaving exactly the serialized entries inside a rebalanced document. -/
theorem smartTruncate_truncDoc (es : List (List Char × List Char)) :
    smartTruncate (truncDoc es) =
      some (filesHeader ++ ((renderEntries es) ++
        (['\n', ' ', ' '] ++ '\x7d' :: (['\n'] ++ ['\x7d'])))) := by
  unfold smartTruncate truncDoc
  rw [List.append_assoc]
  rw [findSubIdx_filesHeader]
  simp only []
  rw [findCharFrom_header]
  simp only []
  rw [List.take_left' (by decide), List.drop_left' (by decide)]
  rw [stGo_renderEntries_trunc]
  simp [List.reverse_reverse, List.append_assoc]

/-- Assigning a fresh key appends the entry at the end of a Python dict. -/
theorem dinsert_fresh : ∀ {d : List (PVal × PVal)} {k v : PVal},
    k ∉ d.map Prod.fst → dinsert d k v = d ++ [(k, v)] := by
  intro d
  induction d with
  | nil => intro k v _; rfl
  | cons kv rest ih =>
    intro k v h
    obtain ⟨k1, v1⟩ := kv
    simp only [List.map_cons, List.mem_cons] at h
    push_neg at h
    show (if k1 = k then _ else _) = _
    rw [if_neg (fun hh => h.1 hh.symm), ih h.2]
    rfl

/-- Inserting entries with pairwise-distinct keys into a dict none of whose
keys collide reproduces the entries in order. -/
theorem insEntries_fresh : ∀ (es : List (List Char × List Char)) (acc : List (PVal × PVal)),
    (es.map Prod.fst).Nodup →
    (∀ k ∈ es.map Prod.fst, (PVal.str k) ∉ acc.map Prod.fst) →
    insEntries acc es = acc ++ entriesPV es := by
  intro es
  induction es with
  | nil => intro acc _ _; simp [insEntries, entriesPV]
  | cons e es2 ih =>
    intro acc hnd hfr
    obtain ⟨k, v⟩ := e
    have hstep : insEntries acc ((k, v) :: es2) =
        insEntries (dinsert acc (.str k) (.str v)) es2 := rfl
    rw [hstep, dinsert_fresh (hfr k (by simp))]
    have hnd2 : (es2.map Prod.fst).Nodup :=
      (List.nodup_cons.mp (by simpa using hnd)).2
    have hkfresh : k ∉ es2.map Prod.fst :=
      (List.nodup_cons.mp (by simpa using hnd)).1
    have hfr2 : ∀ k2 ∈ es2.map Prod.fst,
        (PVal.str k2) ∉ (acc ++ [(PVal.str k, PVal.str v)]).map Prod.fst := by
      intro k2 hk2
      simp only [List.map_append, List.mem_append] at *
      rintro (hin | hin)
      · exact hfr k2 (by simp [hk2]) hin
      · simp only [List.map_cons, List.mem_cons] at hin
        rcases hin with hin | hin
        · exact hkfresh (by rw [PVal.str.inj hin] at hk2; exact hk2)
        · simp at hin
    rw [ih (acc ++ [(PVal.str k, PVal.str v)]) hnd2 hfr2]
    simp [entriesPV, List.append_assoc]

/-- String file bodies pass through the content coercion unchanged. -/
theorem coerceFiles_entriesPV (es : List (List Char × List Char)) :
    coerceFiles (entriesPV es) = entriesPV es := by
  induction es with
  | nil => rfl
  | cons e es2 ih =>
    show (PVal.str e.1, coerceFile (.str e.2)) :: coerceFiles (entriesPV es2) = _
    rw [ih]
    rfl

/-- `result.get('files', \x7b\x7d)` on the parsed single-key document returns
its files object. -/
theorem resGetFiles_files (v : PVal) :
    resGetFiles (.dict [(.str (("files").toList), v)]) = .ok v := rfl

theorem dinsert_mem : ∀ {d : List (PVal × PVal)} {k v p},
    p ∈ dinsert d k v → p ∈ d ∨ p = (k, v) := by
  intro d
  induction d with
  | nil =>
    intro k v p hp
    simp [dinsert] at hp
    exact Or.inr hp
  | cons kv rest ih =>
    intro k v p hp
    obtain ⟨k', v'⟩ := kv
    simp only [dinsert] at hp
    split at hp
    · rename_i hk
      rcases List.mem_cons.mp hp with h | h
      · exact Or.inr (by rw [h, hk])
      · exact Or.inl (List.mem_cons_of_mem _ h)
    · rcases List.mem_cons.mp hp with h | h
      · exact Or.inl (by rw [h]; exact List.mem_cons_self _ _)
      · rcases ih h with h2 | h2
        · exact Or.inl (List.mem_cons_of_mem _ h2)
        · exact Or.inr h2

theorem commitModel_some {mn : PVal} {ff : List (PVal × PVal)} {mn2 cf}
    (h : commitModel mn ff = .ok (some (mn2, cf))) :
    pyTruthy mn2 = true ∧ cf ≠ [] := by
  unfold commitModel at h
  split at h
  · rename_i hcond
    split at h
    · simp only [Except.ok.injEq, Option.some.injEq, Prod.mk.injEq] at h
      obtain ⟨h1, h2⟩ := h
      subst h1; subst h2
      have hb := (Bool.and_eq_true _ _).mp hcond
      refine ⟨hb.1, ?_⟩
      have hne : ff ≠ [] := by
        intro hff; rw [hff] at hb; simp at hb
      intro hcf
      have : ff.length = 0 := by
        have := congrArg List.length hcf
        simpa [cleanFields] using this
      exact hne (List.length_eq_zero.mp this)
    · exact absurd h (by simp)
  · exact absurd h (by simp)

theorem processModel_some {mn0 md : PVal} {mn cf}
    (h : processModel mn0 md = .ok (some (mn, cf))) :
    pyTruthy mn = true ∧ cf ≠ [] := by
  cases md with
  | dict d =>
    simp only [processModel] at h
    split at h
    · split at h
      · exact absurd h (by simp)
      · split at h
        · split at h
          · exact absurd h (by simp)
          · exact commitModel_some h
        · exact commitModel_some h
    · split at h
      · split at h
        · exact absurd h (by simp)
        · exact commitModel_some h
      · exact commitModel_some h
  | str s => exact absurd h (by simp [processModel])
  | int n => exact absurd h (by simp [processModel])
  | bool b => exact absurd h (by simp [processModel])
  | null => exact absurd h (by simp [processModel])
  | list l => exact absurd h (by simp [processModel])

/-- The invariant established by strategy 1 of the normalizer: every model in
the accumulated `normalized` dict has a truthy name and a non-empty field
dict. -/
theorem processList_inv : ∀ (items : List PVal) (acc m : List (PVal × PVal)),
    (∀ p ∈ acc, pyTruthy p.1 = true ∧ ∃ f, p.2 = PVal.dict f ∧ f ≠ []) →
    processList items acc = .ok m →
    ∀ p ∈ m, pyTruthy p.1 = true ∧ ∃ f, p.2 = PVal.dict f ∧ f ≠ [] := by
  intro items
  induction items with
  | nil =>
    intro acc m hacc h
    simp only [processList, Except.ok.injEq] at h
    subst h; exact hacc
  | cons item rest ih =>
    intro acc m hacc h
    simp only [processList] at h
    split at h
    · exact absurd h (by simp)
    · exact ih acc m hacc h
    · rename_i hs
      refine ih _ m ?_ h
      intro p hp
      rcases dinsert_mem hp with h2 | h2
      · exact hacc p h2
      · obtain ⟨hty, hcf⟩ := processModel_some hs
        rw [h2]
        exact ⟨hty, _, rfl, hcf⟩

/-! # Theorems -/

/-! ## C3: the type canonicalization table -/

/-- C3 (counterexample): the claim maps `"TIMESTAMP"` to `datetime`, but the
datetime rule requires both the substring `"date"` and the substring
`"time"`, and `"timestamp"` does not contain `"date"`; the canonicalizer
actually maps `"TIMESTAMP"` to the default tag `string`. -/
theorem canonType_timestamp_counterexample :
    canonType (.str (("TIMESTAMP").toList)) = ("string").toList ∧
    ("string").toList ≠ ("datetime").toList := by decide

/-- C3 (amended): the canonicalizer maps `"VARCHAR"`, `"BOOL"`,
`"TIMESTAMP"`, `"DOUBLE"`, `"TEXT"`, `"INT4"` to `string`, `boolean`,
`string`, `float`, `text`, `integer` respectively — `"TIMESTAMP"` falls to
the default tag because it lacks the substring `"date"`; the other five map
as the claim states. -/
theorem canonType_table_amended :
    canonType (.str (("VARCHAR").toList)) = ("string").toList ∧
    canonType (.str (("BOOL").toList)) = ("boolean").toList ∧
    canonType (.str (("TIMESTAMP").toList)) = ("string").toList ∧
    canonType (.str (("DOUBLE").toList)) = ("float").toList ∧
    canonType (.str (("TEXT").toList)) = ("text").toList ∧
    canonType (.str (("INT4").toList)) = ("integer").toList := by decide

/-! ## C4: the early empty-files error skips the fallback strategies -/

/-- C4 (code bug): on `{"files": {}}` the strict parse succeeds and yields an
empty files mapping, and the engine stops at once with the uncaught
`ValueError("API returned empty files dictionary")` of line 1106 — distinct
from the final exhausted-strategies error of line 1410 — because that
`ValueError` is raised inside a `try` whose handler catches only
`json.JSONDecodeError`.  The fallback strategies are never attempted, contrary
to the claim (and to the strategy-1 block, which does catch its parallel
`ValueError`). -/
theorem recover_empty_files_early_error :
    jsonLoads (preprocess (("\x7b\"files\": \x7b\x7d\x7d").toList)) =
      some (.dict [(.str (("files").toList), .dict [])]) ∧
    recover (("\x7b\"files\": \x7b\x7d\x7d").toList) = .error .emptyFiles ∧
    RecErr.emptyFiles ≠ RecErr.unrecoverable := by decide

/-! ## C5: content-shape coercion -/

/-- C5 (counterexample): the claim says a bare scalar value is stringified
and every value in the returned `FileMap` is a plain text string, but the
coercion's `else` branch passes non-dict, non-list values through unchanged:
on `{"files": {"a": 42}}` the engine returns the integer `42` untouched. -/
theorem coercion_scalar_counterexample :
    recover (("\x7b\"files\": \x7b\"a\": 42\x7d\x7d").toList) =
      .ok (.dict [(.str (("a").toList), .int 42)]) ∧
    isStrVal (.int 42) = false := by decide

/-- C5 (amended): an object value `{"a": "x", "b": "y"}` under a file key
coerces to `"x\ny"` (insertion order preserved) and an array `["x", "y"]`
coerces to `"x\ny"`, but a bare scalar is NOT stringified: every non-dict,
non-list value (strings, numbers, booleans, null) passes through unchanged,
so post-coercion values are plain strings only when the parsed values were
dicts, lists or strings. -/
theorem coercion_amended :
    coerceFile (.dict [(.str (("a").toList), .str (("x").toList)),
      (.str (("b").toList), .str (("y").toList))]) = .str (("x\ny").toList) ∧
    coerceFile (.list [.str (("x").toList), .str (("y").toList)]) =
      .str (("x\ny").toList) ∧
    (∀ n : Int, coerceFile (.int n) = .int n) ∧
    (∀ b : Bool, coerceFile (.bool b) = .bool b) ∧
    coerceFile .null = .null ∧
    (∀ s : List Char, coerceFile (.str s) = .str s) := by
  refine ⟨by decide, by decide, fun n => rfl, fun b => rfl, rfl, fun s => rfl⟩

/-! ## C8: schema format equivalence -/

/-- C8: the array-of-descriptors input, the already-canonical map input and
the OpenAPI input all normalize to exactly `{"User": {"id": "integer"}}`. -/
theorem normSchema_format_equivalence :
    normSchema (.list [.dict [(.str (("name").toList), .str (("User").toList)),
        (.str (("fields").toList), .list [.dict [(.str (("name").toList), .str (("id").toList)),
          (.str (("type").toList), .str (("int").toList))]])]]) =
      .ok (.dict [(.str (("User").toList),
        .dict [(.str (("id").toList), .str (("integer").toList))])]) ∧
    normSchema (.dict [(.str (("User").toList),
        .dict [(.str (("id").toList), .str (("int").toList))])]) =
      .ok (.dict [(.str (("User").toList),
        .dict [(.str (("id").toList), .str (("integer").toList))])]) ∧
    normSchema (.dict [(.str (("components").toList), .dict [(.str (("schemas").toList),
        .dict [(.str (("User").toList), .dict [(.str (("properties").toList),
          .dict [(.str (("id").toList), .dict [(.str (("type").toList),
            .str (("integer").toList))])])])])])]) =
      .ok (.dict [(.str (("User").toList),
        .dict [(.str (("id").toList), .str (("integer").toList))])]) := by decide

/-! ## C7: the Schema Normalizer's failure behavior -/

/-- C7 (counterexample): the claim says `normalize_schema` raises no
exception on any JSON-like input, but on `{"components": 5}` the membership
test `'schemas' in schema['components']` is applied to an integer and raises
`TypeError`. -/
theorem normSchema_exception_counterexample :
    normSchema (.dict [(.str (("components").toList), .int 5)]) =
      .error .typeErr := by decide

/-- C7 (amended): `normalize_schema` can raise (e.g. `TypeError` on a
non-container `components` value); on every input on which it completes and
has identified zero models (`normalized` empty), it returns the original
input value unchanged as a degraded fallback. -/
theorem normSchema_identity_fallback (s : PVal) (h : normCore s = .ok []) :
    normSchema s = .ok s := by
  unfold normSchema
  rw [h]
  cases s with
  | dict d =>
    simp only [List.isEmpty_nil, if_true]
    split
    · rename_i hcond
      have hne : ¬d.isEmpty := by
        intro hd
        rw [hd] at hcond
        simp at hcond
      simp [hne]
    · simp
  | str s => simp
  | int n => simp
  | bool b => simp
  | null => simp
  | list l => simp

theorem normSchema_identity_fallback_witness :
    normCore (.int 7) = .ok [] ∧ normSchema (.int 7) = .ok (.int 7) :=
  ⟨by decide, normSchema_identity_fallback (.int 7) (by decide)⟩

/-! ## C9: the model commit condition -/

/-- C9 (counterexample): the claim says a model appears in the result only if
it has a non-empty name and at least one extracted field, but the
already-normalized branch commits models without these checks: on
`{"User": {"id": "int"}, "": {}}` the result (with types normalized, so it is
a genuinely produced result, not the identity fallback) contains the model
`""` with an empty field dict. -/
theorem normSchema_commit_counterexample :
    normSchema (.dict [(.str (("User").toList),
        .dict [(.str (("id").toList), .str (("int").toList))]),
      (.str [], .dict [])]) =
      .ok (.dict [(.str (("User").toList),
          .dict [(.str (("id").toList), .str (("integer").toList))]),
        (.str [], .dict [])]) ∧
    pyTruthy (.str []) = false ∧
    ((.str [], .dict []) : PVal × PVal) ∈
      [((.str (("User").toList) : PVal),
          (.dict [(.str (("id").toList), .str (("integer").toList))] : PVal)),
        (.str [], .dict [])] := by decide

/-- C9 (amended): models committed through descriptor processing
(`process_model`) do require a truthy name and at least one extracted field —
in particular, for every array input whose normalization returns a dict,
every model in the result has a truthy name and a non-empty field dict; but
the already-normalized branch and the last-resort fallback commit models
without these checks (see the counterexample). -/
theorem normSchema_commit_amended (items : List PVal) (m : List (PVal × PVal))
    (h : normSchema (.list items) = .ok (.dict m)) :
    ∀ p ∈ m, pyTruthy p.1 = true ∧ ∃ f, p.2 = PVal.dict f ∧ f ≠ [] := by
  unfold normSchema at h
  cases hc : normCore (.list items) with
  | error e => rw [hc] at h; exact absurd h (by simp)
  | ok n =>
    rw [hc] at h
    simp only [] at h
    by_cases hn : n.isEmpty
    · rw [if_pos hn] at h
      simp only [List.isEmpty_nil, if_true] at h
      exact absurd h (by simp)
    · rw [if_neg hn, if_neg hn] at h
      simp only [Except.ok.injEq, PVal.dict.injEq] at h
      subst h
      have hc2 : processList items [] = .ok n := hc
      exact processList_inv items [] n (by simp) hc2

theorem normSchema_commit_amended_witness :
    pyTruthy (PVal.str (("User").toList)) = true ∧
    ∃ f, (PVal.dict [(PVal.str (("id").toList), PVal.str (("integer").toList))] : PVal) =
      PVal.dict f ∧ f ≠ [] :=
  normSchema_commit_amended
    [.dict [(.str (("name").toList), .str (("User").toList)),
      (.str (("fields").toList), .list [.dict [(.str (("name").toList), .str (("id").toList)),
        (.str (("type").toList), .str (("int").toList))]])]]
    [(.str (("User").toList), .dict [(.str (("id").toList), .str (("integer").toList))])]
    (by decide)
    (.str (("User").toList), .dict [(.str (("id").toList), .str (("integer").toList))])
    (by decide)

/-! ## C6: the escape-aware re-escaping stage -/

/-- C6: the re-escaping state machine rewrites a literal newline, carriage
return or tab inside a string literal to its two-character escape, replaces
any other control code point below 0x20 inside a string literal with a
single space, passes characters outside string literals through unchanged, a
quote toggles the in-string state (when not escaped), a backslash escapes
exactly the next character, and text with no literal control characters
(in particular, text containing only valid escape sequences) is left
byte-for-byte identical. -/
theorem fixCtl_spec :
    (∀ t : List Char, (∀ c ∈ t, 32 ≤ c.toNat) → fixCtl t = t) ∧
    (∀ cs, fixGo true false ('\n' :: cs) = '\\' :: 'n' :: fixGo true false cs) ∧
    (∀ cs, fixGo true false ('\r' :: cs) = '\\' :: 'r' :: fixGo true false cs) ∧
    (∀ cs, fixGo true false ('\t' :: cs) = '\\' :: 't' :: fixGo true false cs) ∧
    (∀ c cs, c.toNat < 32 → c ≠ '\n' → c ≠ '\r' → c ≠ '\t' →
      fixGo true false (c :: cs) = ' ' :: fixGo true false cs) ∧
    (∀ c cs, c ≠ '\\' → c ≠ '"' →
      fixGo false false (c :: cs) = c :: fixGo false false cs) ∧
    (∀ b cs, fixGo b false ('"' :: cs) = '"' :: fixGo (!b) false cs) ∧
    (∀ b cs, fixGo b false ('\\' :: cs) = '\\' :: fixGo b true cs) ∧
    (∀ b c cs, fixGo b true (c :: cs) = c :: fixGo b false cs) := by
  refine ⟨?_, ?_, ?_, ?_, ?_, ?_, ?_, ?_, ?_⟩
  · intro t ht
    exact fixCtl_noop ht
  · intro cs; simp [fixGo]
  · intro cs; simp [fixGo]
  · intro cs; simp [fixGo]
  · intro c cs h1 h2 h3 h4
    have hb : ¬(c = '\\') := by intro hx; subst hx; exact absurd h1 (by decide)
    have hq : ¬(c = '"') := by intro hx; subst hx; exact absurd h1 (by decide)
    simp [fixGo, hb, hq, h2, h3, h4, h1]
  · intro c cs h1 h2
    simp [fixGo, h1, h2]
  · intro b cs; simp [fixGo]
  · intro b cs; simp [fixGo]
  · intro b c cs; simp [fixGo]

theorem fixCtl_spec_witness :
    fixCtl (("ab").toList) = ("ab").toList ∧
    fixGo true false ('\x01' :: []) = ' ' :: fixGo true false [] ∧
    fixGo false false ('x' :: []) = 'x' :: fixGo false false [] :=
  ⟨fixCtl_spec.1 (("ab").toList) (by decide),
   fixCtl_spec.2.2.2.2.1 '\x01' [] (by decide) (by decide) (by decide) (by decide),
   fixCtl_spec.2.2.2.2.2.1 'x' [] (by decide) (by decide)⟩

/-! ## C10: the truncation scanner is blind to square brackets -/

/-- C10: the truncation-recovery scanner tracks only curly-brace depth and
string/escape state — `[` and `]` leave its state unchanged — and it records
any comma outside string literals at depth 1 as a safe truncation point,
including commas inside a JSON-array value; consequently, on the truncated
input `{"files": {"a": ["x", "y"` the chosen truncation point falls inside
the array and the truncated text `{"files": {"a": ["x"` plus the closing
sequence is not valid JSON. -/
theorem smartTruncate_bracket_blind :
    (∀ d last acc cs, stGo false false d last acc ('[' :: cs) =
      stGo false false d last ('[' :: acc) cs) ∧
    (∀ d last acc cs, stGo false false d last acc (']' :: cs) =
      stGo false false d last (']' :: acc) cs) ∧
    (∀ last acc cs, stGo false false 1 last acc (',' :: cs) =
      stGo false false 1 (some acc.reverse) (',' :: acc) cs) ∧
    smartTruncate (("\x7b\"files\": \x7b\"a\": [\"x\", \"y\"").toList) =
      some (("\x7b\"files\": \x7b\"a\": [\"x\"\n  \x7d\n\x7d").toList) ∧
    jsonLoads (("\x7b\"files\": \x7b\"a\": [\"x\"\n  \x7d\n\x7d").toList) = none := by
  refine ⟨?_, ?_, ?_, by decide, by decide⟩
  · intro d last acc cs; simp [stGo]
  · intro d last acc cs; simp [stGo]
  · intro last acc cs; simp [stGo]

/-- C1 (counterexample): the claim says serializing any string-valued
`FileMap` into a compliant `\x7b"files": ...\x7d` document and recovering it
returns every value unchanged, but the preprocessing's trailing-comma rewrite
is applied blindly inside string literals: the value `",\x7d"` is rewritten to
`"\x7d"` before parsing, so the round trip loses the comma. -/
theorem recover_roundtrip_counterexample :
    recover (serializeFilesDoc [((("f").toList), ((",\x7d").toList))]) =
      .ok (.dict [(.str (("f").toList), .str (("\x7d").toList))]) ∧
    (PVal.dict [(.str (("f").toList), .str (("\x7d").toList))]) ≠
      .dict (entriesPV [((("f").toList), ((",\x7d").toList))]) :=
  ⟨by decide, by decide⟩

/-- C1 (amended): for every non-empty `FileMap` with distinct keys whose
compliant serialization is left unchanged by the preprocessing pipeline
(fence stripping, outer-brace slicing, strip, trailing-comma removal,
control-character re-escaping) — in particular whenever no value contains a
comma directly before a closing brace or bracket — the Recovery Engine's
strict parse and content coercion return exactly the serialized entries. -/
theorem recover_roundtrip_amended (F : List (List Char × List Char))
    (hne : F ≠ []) (hnd : (F.map Prod.fst).Nodup)
    (hpre : preprocess (serializeFilesDoc F) = serializeFilesDoc F) :
    recover (serializeFilesDoc F) = .ok (.dict (entriesPV F)) := by
  have hdoc : serializeFilesDoc F =
      filesHeader ++ (renderEntries F ++
        (([] : List Char) ++ '\x7d' :: (([] : List Char) ++ ['\x7d']))) := by
    simp [serializeFilesDoc]
  have hins : insEntries [] F = entriesPV F := by
    rw [insEntries_fresh F [] hnd (by intro k hk; simp)]
    simp
  have hjl : jsonLoads (serializeFilesDoc F) =
      some (.dict [(.str (("files").toList), .dict (entriesPV F))]) := by
    rw [hdoc, jsonLoads_filesDoc F [] [] hne
      (by intro c hc; simp at hc) (by intro c hc; simp at hc), hins]
  have htr : pyTruthy (.dict (entriesPV F)) = true := by
    cases F with
    | nil => exact absurd rfl hne
    | cons e es => simp [pyTruthy, entriesPV]
  simp only [recover, hpre, hjl]
  simp only [resGetFiles_files]
  simp only [htr, if_true]
  simp only [coerceFiles_entriesPV]

theorem recover_roundtrip_amended_witness :
    preprocess (serializeFilesDoc [((("a").toList), (("b").toList))]) =
      serializeFilesDoc [((("a").toList), (("b").toList))] ∧
    recover (serializeFilesDoc [((("a").toList), (("b").toList))]) =
      .ok (.dict (entriesPV [((("a").toList), (("b").toList))])) :=
  ⟨by decide, recover_roundtrip_amended _ (by decide) (by decide) (by decide)⟩

/-- C2 (counterexample): the claim says every document cut off right after a
complete entry's closing quote and comma is recovered to exactly its complete
entries, but when a value contains a closing brace the outer-brace slicing
cuts the document at that brace, every strategy then fails, and the engine
raises the final unrecoverable-format error instead of returning the
entry. -/
theorem recover_truncation_counterexample :
    recover (truncDoc [((("a").toList), (("x\x7dy").toList))]) =
      .error .unrecoverable := by decide

/-- C2 (amended): for every non-empty entry list with distinct keys whose
truncated document (cut off right after the last complete entry's closing
quote and comma) contains no closing brace and is left unchanged by the
preprocessing pipeline and by `fix_json_common_issues`, the Recovery Engine
recovers exactly the complete entries: the strict parse and strategy 1 fail,
and strategy 2's smart truncation cuts at the final comma, rebalances the
object, and returns the entries without coercion. -/
theorem recover_truncation_amended (es : List (List Char × List Char))
    (hne : es ≠ []) (hnd : (es.map Prod.fst).Nodup)
    (hpre : preprocess (truncDoc es) = truncDoc es)
    (hnb : hasChar '\x7d' (truncDoc es) = false)
    (hfix : fixCommon (truncDoc es) = truncDoc es) :
    recover (truncDoc es) = .ok (.dict (entriesPV es)) := by
  have hins : insEntries [] es = entriesPV es := by
    rw [insEntries_fresh es [] hnd (by intro k hk; simp)]
    simp
  have hjl : jsonLoads (truncDoc es) = none := jsonLoads_truncDoc es hne
  have hs1 : strat1 (truncDoc es) = .ok none := by
    unfold strat1
    rw [fjo_none hnb]
  have htr : pyTruthy (.dict (entriesPV es)) = true := by
    cases es with
    | nil => exact absurd rfl hne
    | cons e es2 => simp [pyTruthy, entriesPV]
  have htj : jsonLoads (filesHeader ++ ((renderEntries es) ++
      (['\n', ' ', ' '] ++ '\x7d' :: (['\n'] ++ ['\x7d'])))) =
      some (.dict [(.str (("files").toList), .dict (entriesPV es))]) := by
    rw [jsonLoads_filesDoc es ['\n', ' ', ' '] ['\n'] hne (by decide) (by decide), hins]
  have hs2 : strat2 (truncDoc es) = .ok (some (.dict (entriesPV es))) := by
    simp only [strat2, hfix, hjl]
    rw [smartTruncate_truncDoc]
    simp only []
    rw [htj]
    simp only [resGetFiles_files]
    simp only [htr, if_true]
  simp only [recover, hpre, hjl]
  rw [hs1]
  simp only []
  rw [hs2]

theorem recover_truncation_amended_witness :
    preprocess (truncDoc [((("a").toList), (("b").toList))]) =
      truncDoc [((("a").toList), (("b").toList))] ∧
    hasChar '\x7d' (truncDoc [((("a").toList), (("b").toList))]) = false ∧
    fixCommon (truncDoc [((("a").toList), (("b").toList))]) =
      truncDoc [((("a").toList), (("b").toList))] ∧
    recover (truncDoc [((("a").toList), (("b").toList))]) =
      .ok (.dict (entriesPV [((("a").toList), (("b").toList))])) :=
  ⟨by decide, by decide, by decide,
    recover_truncation_amended _ (by decide) (by decide) (by decide) (by decide) (by decide)⟩

end RecoveryEngine

